import Mathlib

/-!
# Verification of the question-generation batching core

A shallow embedding, in Lean 4, of the batching / pipeline-orchestration /
output-normalization core of the question-generation application
(`batch_processor.py` and `result_renderer.py`), together with theorems
settling the behavioural claims about it.

Conventions of the embedding:

* Python strings are modelled as `List Char` internally; `String` wrappers are
  provided at statement boundaries.  Python `dict`s (which preserve insertion
  order and have unique keys) are modelled as association lists with
  first-match lookup (`alGet`) and update-in-place-or-append write (`alSet`).
* Machine-level concerns do not arise: all arithmetic in the source is small
  Python integer arithmetic, modelled with `Nat`/`Int`.
* Fallible operations (JSON decoding, `int(...)`) return `Option`; the
  `try/except` blocks of the source become `match`es on those options.
* The concrete regular expressions of the source are hand-compiled into
  deterministic matching functions, following Python `re` leftmost /
  greedy / lazy semantics for those particular patterns.
* The JSON decoder mirrors `json.JSONDecoder.raw_decode` (including its
  `strict` flag, duplicate-key behaviour and trailing-garbage tolerance).
  Numeric literals are kept as their source lexemes (constructor `JsonVal.num`)
  since no claim depends on numeric arithmetic.
* Recursion that is not structural in the source data is driven by an explicit
  fuel argument that is always instantiated large enough for the input at
  hand, so that every definition evaluates by kernel reduction.
-/

/-! ## Basic character and string utilities (Python semantics) -/

/-- Whitespace as recognised by Python's `str.strip`, `str.split()` and the
regex class `\s` (the ASCII part; the sources only ever meet ASCII input). -/
def pyWs (c : Char) : Bool :=
  c = ' ' || c = '\t' || c = '\n' || c = '\r' || c = '\x0b' || c = '\x0c'

/-- JSON whitespace (`json.decoder.WHITESPACE_STR`). -/
def jWs (c : Char) : Bool :=
  c = ' ' || c = '\t' || c = '\n' || c = '\r'

/-- Python `str.strip()` on character lists. -/
def pyStripL (l : List Char) : List Char :=
  ((l.dropWhile pyWs).reverse.dropWhile pyWs).reverse

/-- Python `str.strip()`. -/
def pyStrip (s : String) : String :=
  String.mk (pyStripL s.data)

/-- ASCII-range model of Python `str.lower()` (the two coincide on the ASCII
strings these programs handle). -/
def lowerL (l : List Char) : List Char :=
  l.map Char.toLower

/-- `startsWithL l pre` : does `l` start with `pre`? -/
def startsWithL : List Char → List Char → Bool
  | _, [] => true
  | [], _ :: _ => false
  | a :: t, b :: u => a = b && startsWithL t u

/-- Python `needle in hay` substring test. -/
def containsSubL (l needle : List Char) : Bool :=
  match l with
  | [] => needle.isEmpty
  | _ :: t => startsWithL l needle || containsSubL t needle

/-- Python `hay.find(needle)` (first index of a substring, `none` for -1). -/
def findSubIdx (l needle : List Char) : Option Nat :=
  match l with
  | [] => if needle.isEmpty then some 0 else none
  | _ :: t =>
    if startsWithL l needle then some 0
    else (findSubIdx t needle).map (· + 1)

/-- Fuel-driven worker for `replaceL`. -/
def replaceFuel : Nat → List Char → List Char → List Char → List Char
  | 0, l, _, _ => l
  | fuel + 1, l, old, new =>
    match l with
    | [] => []
    | c :: t =>
      if !old.isEmpty && startsWithL l old then
        new ++ replaceFuel fuel (l.drop old.length) old new
      else
        c :: replaceFuel fuel t old new

/-- Python `str.replace(old, new)`: all non-overlapping occurrences, scanning
left to right (the sources only call it with non-empty `old`). -/
def replaceL (l old new : List Char) : List Char :=
  replaceFuel l.length l old new

/-- Fuel-driven worker for `splitOnL`. -/
def splitOnFuel : Nat → List Char → List Char → List (List Char)
  | 0, l, _ => [l]
  | fuel + 1, l, sep =>
    match findSubIdx l sep with
    | none => [l]
    | some i => l.take i :: splitOnFuel fuel (l.drop (i + sep.length)) sep

/-- Python `str.split(sep)` for a non-empty separator. -/
def splitOnL (l sep : List Char) : List (List Char) :=
  splitOnFuel l.length l sep

/-- Worker for `pySplitWsL`: Python `str.split()` (split on whitespace runs,
dropping empty fields); `acc` holds the current field reversed. -/
def splitWsAux : List Char → List Char → List (List Char)
  | [], acc => if acc.isEmpty then [] else [acc.reverse]
  | c :: t, acc =>
    if pyWs c then
      if acc.isEmpty then splitWsAux t [] else acc.reverse :: splitWsAux t []
    else
      splitWsAux t (c :: acc)

/-- Python `str.split()` with no arguments. -/
def pySplitWsL (l : List Char) : List (List Char) :=
  splitWsAux l []

/-- `sep.join(parts)`. -/
def joinWith (sep : List Char) : List (List Char) → List Char
  | [] => []
  | [x] => x
  | x :: y :: t => x ++ sep ++ joinWith sep (y :: t)

/-- Is `c` an ASCII decimal digit? -/
def isDigitC (c : Char) : Bool :=
  '0' ≤ c && c ≤ '9'

/-- Numeric value of a digit run (used only to build `questionN` keys). -/
def digitsToNat (l : List Char) : Nat :=
  l.foldl (fun acc c => acc * 10 + (c.toNat - 48)) 0

/-- Fuel-driven decimal rendering of a `Nat` (most significant digit first),
modelling Python `f"{n}"` for a non-negative int. -/
def natDecF : Nat → Nat → List Char
  | 0, _ => []
  | fuel + 1, n =>
    if n < 10 then [Char.ofNat (48 + n)]
    else natDecF fuel (n / 10) ++ [Char.ofNat (48 + n % 10)]

/-- Decimal rendering of a `Nat` as a character list (no leading zeros). -/
def natDec (n : Nat) : List Char :=
  natDecF (n + 1) n

/-- Python `int(s)`: optional surrounding whitespace, optional sign, at least
one digit (the underscore-grouping extension is not modelled; no caller
produces it). Returns `none` where Python raises `ValueError`. -/
def pyInt (l : List Char) : Option Int :=
  let t := pyStripL l
  let core : List Char → Option Int := fun ds =>
    if ds.isEmpty || !(ds.all isDigitC) then none
    else some (Int.ofNat (digitsToNat ds))
  match t with
  | '-' :: ds => (core ds).map (fun n => -n)
  | '+' :: ds => core ds
  | ds => core ds

/-- Python `int(s)` on a `String`. -/
def pyIntS (s : String) : Option Int :=
  pyInt s.data

/-! ## Association lists as ordered Python dicts -/

/-- `d.get(k)` / `d[k]`: first (and for genuine dicts, only) match. -/
def alGet {κ α : Type} [DecidableEq κ] (m : List (κ × α)) (k : κ) : Option α :=
  match m with
  | [] => none
  | (k', v) :: t => if k' = k then some v else alGet t k

/-- `d[k] = v`: update in place if present, else append (Python dicts keep the
original key position on overwrite). -/
def alSet {κ α : Type} [DecidableEq κ] (m : List (κ × α)) (k : κ) (v : α) :
    List (κ × α) :=
  match m with
  | [] => [(k, v)]
  | (k', v') :: t =>
    if k' = k then (k', v) :: t else (k', v') :: alSet t k v

/-- `list(d.keys())`. -/
def alKeys {κ α : Type} (m : List (κ × α)) : List κ :=
  m.map Prod.fst

/-- `d.pop(k, None)`'s effect on the dict (the removal). -/
def alPop {κ α : Type} [DecidableEq κ] (m : List (κ × α)) (k : κ) :
    List (κ × α) :=
  m.filter (fun e => e.1 ≠ k)

/-- `d.update(d2)`. -/
def alUpdate {κ α : Type} [DecidableEq κ] (m d : List (κ × α)) : List (κ × α) :=
  d.foldl (fun acc e => alSet acc e.1 e.2) m

/-- `defaultdict(list)`-style `d[k].append(v)`. -/
def dictAppend {κ α : Type} [DecidableEq κ] (m : List (κ × List α)) (k : κ)
    (v : α) : List (κ × List α) :=
  match m with
  | [] => [(k, [v])]
  | (k', l) :: t =>
    if k' = k then (k', l ++ [v]) :: t else (k', l) :: dictAppend t k v

/-! ## A model of Python's `json` module

`JsonVal` models the values `json.loads` can produce.  Numeric literals (and
the `NaN`/`Infinity` constants) are kept as their source lexemes — no claim
depends on numeric arithmetic, only on the shape of decoded data. -/

inductive JsonVal : Type
  | null : JsonVal
  | bool : Bool → JsonVal
  | num : List Char → JsonVal
  | str : List Char → JsonVal
  | arr : List JsonVal → JsonVal
  | obj : List (List Char × JsonVal) → JsonVal

/-- Hex digit value, for `\uXXXX` escapes. -/
def hexVal (c : Char) : Option Nat :=
  if '0' ≤ c && c ≤ '9' then some (c.toNat - 48)
  else if 'a' ≤ c && c ≤ 'f' then some (c.toNat - 87)
  else if 'A' ≤ c && c ≤ 'F' then some (c.toNat - 55)
  else none

/-- Exactly four hex digits (`int(s[end:end + 4], 16)` in `py_scanstring`). -/
def parse4Hex (cs : List Char) : Option (Nat × List Char) :=
  match cs with
  | a :: b :: c :: d :: t =>
    match hexVal a, hexVal b, hexVal c, hexVal d with
    | some x, some y, some z, some w => some (x * 4096 + y * 256 + z * 16 + w, t)
    | _, _, _, _ => none
  | _ => none

/-- `json.decoder.py_scanstring`: scan a JSON string body (the opening quote is
already consumed), honouring the decoder's `strict` flag (control characters
are rejected when strict, kept when not) and joining `\uXXXX` surrogate pairs.
A lone surrogate — which Python would keep in the `str` — has no `Char`
counterpart, so `Char.ofNat` degrades it; no input of interest contains one.
`acc` is the scanned content reversed. -/
def scanStringF : Nat → Bool → List Char → List Char →
    Option (List Char × List Char)
  | 0, _, _, _ => none
  | fuel + 1, strict, acc, cs =>
    match cs with
    | [] => none
    | c :: t =>
      if c = '"' then some (acc.reverse, t)
      else if c = '\\' then
        match t with
        | [] => none
        | e :: u =>
          if e = '"' then scanStringF fuel strict ('"' :: acc) u
          else if e = '\\' then scanStringF fuel strict ('\\' :: acc) u
          else if e = '/' then scanStringF fuel strict ('/' :: acc) u
          else if e = 'b' then scanStringF fuel strict ('\x08' :: acc) u
          else if e = 'f' then scanStringF fuel strict ('\x0c' :: acc) u
          else if e = 'n' then scanStringF fuel strict ('\n' :: acc) u
          else if e = 'r' then scanStringF fuel strict ('\r' :: acc) u
          else if e = 't' then scanStringF fuel strict ('\t' :: acc) u
          else if e = 'u' then
            match parse4Hex u with
            | none => none
            | some (n, u') =>
              if 0xD800 ≤ n && n ≤ 0xDBFF then
                match u' with
                | '\\' :: 'u' :: u'' =>
                  match parse4Hex u'' with
                  | some (m, u3) =>
                    if 0xDC00 ≤ m && m ≤ 0xDFFF then
                      scanStringF fuel strict
                        (Char.ofNat (0x10000 + (n - 0xD800) * 0x400 + (m - 0xDC00))
                          :: acc) u3
                    else scanStringF fuel strict (Char.ofNat n :: acc) u'
                  | none => scanStringF fuel strict (Char.ofNat n :: acc) u'
                | _ => scanStringF fuel strict (Char.ofNat n :: acc) u'
              else scanStringF fuel strict (Char.ofNat n :: acc) u'
          else none
      else if strict && c.toNat < 0x20 then none
      else scanStringF fuel strict (c :: acc) t

/-- `json.scanner.NUMBER_RE`: `-?(0|[1-9]\d*)(\.\d+)?([eE][-+]?\d+)?`,
matched greedily at the current position.  Returns the lexeme and the rest. -/
def parseJsonNumber (cs : List Char) : Option (List Char × List Char) :=
  let signed : List Char × List Char :=
    match cs with
    | '-' :: t => (['-'], t)
    | _ => ([], cs)
  let sign := signed.1
  let r1 := signed.2
  let intPart : Option (List Char × List Char) :=
    match r1 with
    | '0' :: t => some (['0'], t)
    | c :: t =>
      if '1' ≤ c && c ≤ '9' then
        some (c :: t.takeWhile isDigitC, t.dropWhile isDigitC)
      else none
    | [] => none
  match intPart with
  | none => none
  | some (ip, r2) =>
    let frac : List Char × List Char :=
      match r2 with
      | '.' :: t =>
        if (t.takeWhile isDigitC).isEmpty then ([], r2)
        else ('.' :: t.takeWhile isDigitC, t.dropWhile isDigitC)
      | _ => ([], r2)
    let r3 := frac.2
    let expo : List Char × List Char :=
      match r3 with
      | e :: t =>
        if e = 'e' || e = 'E' then
          match t with
          | s :: u =>
            if s = '+' || s = '-' then
              if (u.takeWhile isDigitC).isEmpty then ([], r3)
              else (e :: s :: u.takeWhile isDigitC, u.dropWhile isDigitC)
            else if (t.takeWhile isDigitC).isEmpty then ([], r3)
            else (e :: t.takeWhile isDigitC, t.dropWhile isDigitC)
          | [] => ([], r3)
        else ([], r3)
      | [] => ([], r3)
    some (sign ++ ip ++ frac.1 ++ expo.1, expo.2)

/-- `dict(pairs)` for the pair list collected by `JSONObject`: later duplicate
keys overwrite the value but keep the first key's position. -/
def objFromPairs (pairs : List (List Char × JsonVal)) :
    List (List Char × JsonVal) :=
  pairs.foldl (fun acc e => alSet acc e.1 e.2) []

mutual

/-- `_scan_once` of `json.scanner.py_make_scanner`: decode one JSON value
starting exactly at the head of `cs` (no leading-whitespace skip, matching
`raw_decode`).  Fuel-driven; every caller supplies ample fuel. -/
def parseJsonValue : Nat → Bool → List Char → Option (JsonVal × List Char)
  | 0, _, _ => none
  | fuel + 1, strict, cs =>
    match cs with
    | '"' :: t =>
      (scanStringF (t.length + 1) strict [] t).map
        (fun p => (JsonVal.str p.1, p.2))
    | '{' :: t =>
      let t' := t.dropWhile jWs
      match t' with
      | '}' :: u => some (JsonVal.obj [], u)
      | '"' :: u => parseJsonPair fuel strict u []
      | _ => none
    | '[' :: t =>
      let t' := t.dropWhile jWs
      match t' with
      | ']' :: u => some (JsonVal.arr [], u)
      | _ => parseJsonElems fuel strict t' []
    | _ =>
      if startsWithL cs ("null").data then
        some (JsonVal.null, cs.drop 4)
      else if startsWithL cs ("true").data then
        some (JsonVal.bool true, cs.drop 4)
      else if startsWithL cs ("false").data then
        some (JsonVal.bool false, cs.drop 5)
      else
        match parseJsonNumber cs with
        | some (lex, rest) => some (JsonVal.num lex, rest)
        | none =>
          if startsWithL cs ("NaN").data then
            some (JsonVal.num ("NaN").data, cs.drop 3)
          else if startsWithL cs ("Infinity").data then
            some (JsonVal.num ("Infinity").data, cs.drop 8)
          else if startsWithL cs ("-Infinity").data then
            some (JsonVal.num ("-Infinity").data, cs.drop 9)
          else none

/-- `JSONObject` member loop: `cs` starts right after the opening quote of the
next key; `pairs` holds the members read so far, in order. -/
def parseJsonPair : Nat → Bool → List Char →
    List (List Char × JsonVal) → Option (JsonVal × List Char)
  | 0, _, _, _ => none
  | fuel + 1, strict, cs, pairs =>
    match scanStringF (cs.length + 1) strict [] cs with
    | none => none
    | some (key, r1) =>
      match r1.dropWhile jWs with
      | ':' :: r2 =>
        match parseJsonValue fuel strict (r2.dropWhile jWs) with
        | none => none
        | some (v, r3) =>
          let pairs' := pairs ++ [(key, v)]
          match r3.dropWhile jWs with
          | '}' :: r4 => some (JsonVal.obj (objFromPairs pairs'), r4)
          | ',' :: r4 =>
            match r4.dropWhile jWs with
            | '"' :: r5 => parseJsonPair fuel strict r5 pairs'
            | _ => none
          | _ => none
      | _ => none

/-- `JSONArray` element loop: `cs` starts at the next value (whitespace
already skipped); `acc` holds the elements read so far. -/
def parseJsonElems : Nat → Bool → List Char → List JsonVal →
    Option (JsonVal × List Char)
  | 0, _, _, _ => none
  | fuel + 1, strict, cs, acc =>
    match parseJsonValue fuel strict cs with
    | none => none
    | some (v, rest) =>
      match rest.dropWhile jWs with
      | ']' :: r2 => some (JsonVal.arr (acc ++ [v]), r2)
      | ',' :: r2 => parseJsonElems fuel strict (r2.dropWhile jWs) (acc ++ [v])
      | _ => none

end

/-- `JSONDecoder(strict = strict).raw_decode(s, idx)`: decode one value at
`idx`, returning it with the index of the first unconsumed character;
trailing garbage is ignored.  `none` models a raised `JSONDecodeError`. -/
def rawDecode (strict : Bool) (s : List Char) (idx : Nat) :
    Option (JsonVal × Nat) :=
  match parseJsonValue (2 * s.length + 4) strict (s.drop idx) with
  | some (v, rest) => some (v, s.length - rest.length)
  | none => none

/-- `json.loads(s)` (with the decoder's `strict` flag): skip surrounding
whitespace and require the value to span the whole input. -/
def jsonLoads (strict : Bool) (s : List Char) : Option JsonVal :=
  match parseJsonValue (2 * s.length + 4) strict (s.dropWhile jWs) with
  | some (v, rest) => if (rest.dropWhile jWs).isEmpty then some v else none
  | none => none

/-- Lower-case hex digit. -/
def hexDigit (n : Nat) : Char :=
  if n < 10 then Char.ofNat (48 + n) else Char.ofNat (87 + n)

/-- A `\uXXXX` escape. -/
def uEscape (n : Nat) : List Char :=
  ['\\', 'u', hexDigit (n / 4096 % 16), hexDigit (n / 256 % 16),
    hexDigit (n / 16 % 16), hexDigit (n % 16)]

/-- `json.encoder.py_encode_basestring_ascii` treatment of one character
(`ensure_ascii = True`, the `json.dumps` default): escape `"`, `\`, the known
control shortcuts, every other char outside `0x20..0x7e` as `\uXXXX`
(astral chars as a surrogate pair). -/
def escChar (c : Char) : List Char :=
  if c = '"' then ['\\', '"']
  else if c = '\\' then ['\\', '\\']
  else if c = '\n' then ['\\', 'n']
  else if c = '\r' then ['\\', 'r']
  else if c = '\t' then ['\\', 't']
  else if c = '\x08' then ['\\', 'b']
  else if c = '\x0c' then ['\\', 'f']
  else if c.toNat < 0x20 || c.toNat > 0x7e then
    if c.toNat > 0xFFFF then
      uEscape (0xD800 + (c.toNat - 0x10000) / 0x400) ++
        uEscape (0xDC00 + (c.toNat - 0x10000) % 0x400)
    else uEscape c.toNat
  else [c]

/-- `json.dumps` of a string. -/
def dumpStrL (l : List Char) : List Char :=
  '"' :: (l.map escChar).flatten ++ ['"']

/-- Fuel-driven `json.dumps(v)` with the default separators `", "` / `": "`
and `ensure_ascii = True`.  Numbers print their stored lexeme. -/
def dumpsValF : Nat → JsonVal → List Char
  | 0, _ => []
  | _ + 1, .null => ("null").data
  | _ + 1, .bool true => ("true").data
  | _ + 1, .bool false => ("false").data
  | _ + 1, .num lex => lex
  | _ + 1, .str s => dumpStrL s
  | fuel + 1, .arr l =>
    '[' :: joinWith (", ").data (l.map (dumpsValF fuel)) ++ [']']
  | fuel + 1, .obj l =>
    '{' :: joinWith (", ").data
      (l.map (fun e => dumpStrL e.1 ++ (": ").data ++ dumpsValF fuel e.2)) ++
      ['}']

/-- `json.dumps(d)` of a string-keyed dict of decoded values
(`json.dumps(aggregated_json)` in the Batch Flow Runner).  `bound` is fuel; a
value decoded from a string of length `L` has nesting depth at most `L`, so
callers pass a bound derived from the origin text. -/
def dumpsObj (bound : Nat) (m : List (List Char × JsonVal)) : List Char :=
  dumpsValF (bound + 2) (JsonVal.obj m)

/-- One line-break plus `indent * 2` spaces, for `json.dumps(v, indent=2)`. -/
def indentNl (depth : Nat) : List Char :=
  '\n' :: List.replicate (2 * depth) ' '

/-- Fuel-driven `json.dumps(v, indent = 2)` (item separator becomes `","`
followed by a newline and indentation, key separator stays `": "`). -/
def dumpsIndentF : Nat → Nat → JsonVal → List Char
  | 0, _, _ => []
  | _ + 1, _, .null => ("null").data
  | _ + 1, _, .bool true => ("true").data
  | _ + 1, _, .bool false => ("false").data
  | _ + 1, _, .num lex => lex
  | _ + 1, _, .str s => dumpStrL s
  | fuel + 1, depth, .arr l =>
    match l with
    | [] => ("[]").data
    | _ =>
      '[' :: indentNl (depth + 1) ++
        joinWith (',' :: indentNl (depth + 1)) (l.map (dumpsIndentF fuel (depth + 1))) ++
        indentNl depth ++ [']']
  | fuel + 1, depth, .obj l =>
    match l with
    | [] => ("\x7b\x7d").data
    | _ =>
      '{' :: indentNl (depth + 1) ++
        joinWith (',' :: indentNl (depth + 1))
          (l.map (fun e =>
            dumpStrL e.1 ++ (": ").data ++ dumpsIndentF fuel (depth + 1) e.2)) ++
        indentNl depth ++ ['}']

/-- `json.dumps(v, indent = 2)` (`bound` is fuel, as in `dumpsObj`). -/
def dumpsIndent2 (bound : Nat) (v : JsonVal) : List Char :=
  dumpsIndentF (bound + 1) 0 v

/-- Python `repr` of a string: single quotes unless the text contains `'` but
no `"`; backslashes, delimiters and control characters escaped. -/
def pyReprStr (l : List Char) : List Char :=
  let q : Char := if l.contains '\'' && !(l.contains '"') then '"' else '\''
  let esc : Char → List Char := fun c =>
    if c = '\\' then ['\\', '\\']
    else if c = q then ['\\', q]
    else if c = '\n' then ['\\', 'n']
    else if c = '\r' then ['\\', 'r']
    else if c = '\t' then ['\\', 't']
    else if c.toNat < 0x20 || c.toNat = 0x7f then
      ['\\', 'x', hexDigit (c.toNat / 16 % 16), hexDigit (c.toNat % 16)]
    else [c]
  q :: (l.map esc).flatten ++ [q]

/-- Fuel-driven Python `repr` of a decoded JSON value (`None`, `True`,
`False`, quoted strings, `[...]`, `{k: v}`); numeric lexemes are kept. -/
def pyReprF : Nat → JsonVal → List Char
  | 0, _ => []
  | _ + 1, .null => ("None").data
  | _ + 1, .bool true => ("True").data
  | _ + 1, .bool false => ("False").data
  | _ + 1, .num lex => lex
  | _ + 1, .str s => pyReprStr s
  | fuel + 1, .arr l =>
    '[' :: joinWith (", ").data (l.map (pyReprF fuel)) ++ [']']
  | fuel + 1, .obj l =>
    '{' :: joinWith (", ").data
      (l.map (fun e => pyReprStr e.1 ++ (": ").data ++ pyReprF fuel e.2)) ++
      ['}']

/-- Python `str(v)` of a decoded JSON value: the text itself for strings,
`repr` otherwise (`bound` is fuel, as in `dumpsObj`). -/
def pyStrVal (bound : Nat) (v : JsonVal) : List Char :=
  match v with
  | .str s => s
  | v => pyReprF (bound + 1) v

/-- Python truthiness of a decoded JSON value (`None`/`False`/`0`/`""`/empty
containers are falsy).  A numeric lexeme is falsy exactly when its mantissa
digits are all zero. -/
def jsonTruthy (v : JsonVal) : Bool :=
  match v with
  | .null => false
  | .bool b => b
  | .str s => !s.isEmpty
  | .arr l => !l.isEmpty
  | .obj l => !l.isEmpty
  | .num lex =>
    let mantissa := lex.takeWhile (fun c => c ≠ 'e' && c ≠ 'E')
    !((mantissa.filter isDigitC).all (fun c => c = '0')) ||
      containsSubL lex ("Infinity").data || containsSubL lex ("NaN").data

/-! ## Data model: question requests (`batch_processor.py`)

A question-request dict is modelled as a structure.  `payload` stands for the
opaque per-type configuration (difficulty, marks, ...) that the core never
reads; the remaining fields are the keys the core reads or writes.  Absent
dict keys are `none`. -/

structure Request where
  payload : Nat
  qtype : Option String := none
  topic : Option String := none
  originalIndex : Option Nat := none
  isBeingRegenerated : Bool := false
  originalText : Option String := none
  regenerationReason : Option String := none
  additionalNotesText : Option String := none
  mcqType : Option String := none
  fibType : Option String := none
  descriptiveType : Option String := none
deriving DecidableEq, Repr

/-- `DEFAULT_BATCH_SIZE = 4`. -/
def DEFAULT_BATCH_SIZE : Nat := 4

/-- `q_config.get('type', 'MCQ')`. -/
def typeOf (q : Request) : String :=
  q.qtype.getD ("MCQ")

/-- `q.get('topic', '') or 'Unknown'` (an absent, `None` or empty topic falls
back to `'Unknown'`). -/
def topicRawOr (q : Request) : String :=
  match q.topic with
  | none => "Unknown"
  | some t => if t = "" then "Unknown" else t

/-- `" ".join(str(raw_topic).strip().lower().split())`: the normalised topic
key (lower-cased, trimmed, internal whitespace collapsed). -/
def topicKeyOf (q : Request) : String :=
  String.mk (joinWith [' '] (pySplitWsL (lowerL (pyStripL (topicRawOr q).data))))

/-- The step-1 loop of `group_questions_by_type_and_topic` writes
`q_config['original_index'] = idx` into every request of the caller's list;
this is the caller-visible mutated list. -/
def withIndices (qs : List Request) : List Request :=
  qs.enum.map (fun p => { p.2 with originalIndex := some p.1 })

/-- The step-1 grouping `grouped_by_type[q_type].append(q_config)` (insertion
order of first appearance, as for a `defaultdict`). -/
def groupByType (qs : List Request) : List (String × List Request) :=
  qs.foldl (fun m q => dictAppend m (typeOf q) q) []

/-- The simulated naive batch assignment `topic_batch_map[topic_key].append(i
// BATCH_SIZE)` over the current order of one type's questions. -/
def topicBatchMap (l : List Request) : List (String × List Nat) :=
  l.enum.foldl (fun m p => dictAppend m (topicKeyOf p.2) (p.1 / DEFAULT_BATCH_SIZE)) []

/-- `sorted(list(set(batch_indices)))` is used only through its length; this
is the distinct-batch list in first-seen order (same length). -/
def distinctList (l : List Nat) : List Nat :=
  l.foldl (fun acc b => if b ∈ acc then acc else acc ++ [b]) []

/-- `any(c == BATCH_SIZE for c in counts_per_batch.values())`: does some
naive batch hold a full batch-size chunk of this topic? -/
def hasFullBatchChunk (idxs : List Nat) : Bool :=
  (distinctList idxs).any (fun b => idxs.count b = DEFAULT_BATCH_SIZE)

/-- The inefficiency test of the detection loop for one topic's naive batch
indices: skipped when the topic occupies at most one naive batch; otherwise
trigger (a) total ≥ batch size but no naive batch holds a full batch-size
chunk of the topic, or trigger (b) total < batch size yet split across more
than one naive batch. -/
def topicTrigger (idxs : List Nat) : Bool :=
  if (distinctList idxs).length ≤ 1 then false
  else
    (decide (idxs.length ≥ DEFAULT_BATCH_SIZE) && !hasFullBatchChunk idxs) ||
      (decide (idxs.length < DEFAULT_BATCH_SIZE) &&
        decide ((distinctList idxs).length > 1))

/-- `needs_optimization` for one type's question list (the loop breaks at the
first trigger, i.e. it is an existence check). -/
def needsOptimization (l : List Request) : Bool :=
  (topicBatchMap l).any (fun e => topicTrigger e.2)

/-- Step-3 `topic_map[topic_key].append(q)` over one type's questions. -/
def topicMapOf (l : List Request) : List (String × List Request) :=
  l.foldl (fun m q => dictAppend m (topicKeyOf q) q) []

/-- Python string `<` (code-point lexicographic). -/
def strLtL : List Char → List Char → Bool
  | [], [] => false
  | [], _ :: _ => true
  | _ :: _, [] => false
  | a :: t, b :: u => if a = b then strLtL t u else decide (a < b)

/-- Insert into an ascending list (stable). -/
def insertSorted (x : String) : List String → List String
  | [] => [x]
  | y :: t => if strLtL x.data y.data then x :: y :: t else y :: insertSorted x t

/-- `sorted(topic_map.keys())`: Python's ascending stable sort. -/
def sortStrings (l : List String) : List String :=
  l.foldr insertSorted []

/-- The `while len(questions) >= BATCH_SIZE` peeling loop for one topic:
returns the concatenation of the peeled full chunks (in order) and the
remaining (< batch size) questions.  The four-element pattern is
`DEFAULT_BATCH_SIZE = 4`. -/
def peelLoop : List Request → List Request × List Request
  | a :: b :: c :: d :: rest =>
    let p := peelLoop rest
    (a :: b :: c :: d :: p.1, p.2)
  | qs => ([], qs)

/-- `[lst[i:i + BATCH_SIZE] for i in range(0, len(lst), BATCH_SIZE)]` with
`BATCH_SIZE = 4`. -/
def chunkList {α : Type} : List α → List (List α)
  | [] => []
  | a :: b :: c :: d :: rest => [a, b, c, d] :: chunkList rest
  | l => [l]

/-- One iteration of the packing loop: extend the output with the topic's
full chunks and the remainder pool with its leftovers. -/
def packStep (tm : List (String × List Request))
    (acc : List Request × List Request) (topic : String) :
    List Request × List Request :=
  let questions := (alGet tm topic).getD []
  let p := peelLoop questions
  (acc.1 ++ p.1, acc.2 ++ p.2)

/-- Steps 3-4 of `group_questions_by_type_and_topic` when re-packing is
needed: peel full chunks per topic in `sorted(topic_map.keys())` order,
pool the remainders in the same order, then append the pool sliced into
batch-size chunks. -/
def priorityPack (l : List Request) : List Request :=
  let tm := topicMapOf l
  let sortedTopics := sortStrings (alKeys tm)
  let r := sortedTopics.foldl (packStep tm) ([], [])
  r.1 ++ (chunkList r.2).flatten

/-- `group_questions_by_type_and_topic`: index-tag the caller's requests,
group them by type, and for each type keep the original order unless the
inefficiency detector fires, in which case apply Priority Packing. -/
def groupQuestionsByTypeAndTopic (qs : List Request) :
    List (String × List Request) :=
  (groupByType (withIndices qs)).map
    (fun e => (e.1, if needsOptimization e.2 then priorityPack e.2 else e.2))

/-- `f"{base_type_key} - Batch {i + 1}"`. -/
def batchKeyOf (t : String) (i : Nat) : String :=
  t ++ " - Batch " ++ toString (i + 1)

/-! ## `split_generated_content` (batch_processor.py)

The fallback split hand-compiles the heading regex
`(?:\n|^)\s*(?:\*\*)?\s*(?:Question|QUESTION)\s*(?:\[)?\s*(\d+)\s*(?:\])?\s*(?:\*\*|:)?`
(no `MULTILINE`/`IGNORECASE` flags), whose greedy/optional parts are
deterministic for this pattern: no optional group can steal the first
character of a later mandatory part. -/

/-- The heading pattern up to the capture: `(?:\n|^)`, `\s*`, optional
`**`, `\s*`, `Question`/`QUESTION`, `\s*`, optional `[`, `\s*`.  Returns
the rest of the input positioned at the expected digits. -/
def matchHeadingPrefix (atStart : Bool) (cs : List Char) : Option (List Char) :=
  let afterAnchor : Option (List Char) :=
    match cs with
    | '\n' :: t => some t
    | _ => if atStart then some cs else none
  match afterAnchor with
  | none => none
  | some r0 =>
    let r1 := r0.dropWhile pyWs
    let r2 := if startsWithL r1 ("**").data then r1.drop 2 else r1
    let r3 := r2.dropWhile pyWs
    let afterWord : Option (List Char) :=
      if startsWithL r3 ("Question").data then some (r3.drop 8)
      else if startsWithL r3 ("QUESTION").data then some (r3.drop 8)
      else none
    match afterWord with
    | none => none
    | some r4 =>
      let r5 := r4.dropWhile pyWs
      let r6 := match r5 with
        | '[' :: t => t
        | _ => r5
      some (r6.dropWhile pyWs)

/-- The heading pattern after the captured digits: `\s*`, optional `]`,
`\s*`, optional `**` or `:`.  Consumes from the rest of the input. -/
def matchHeadingTail (r8 : List Char) : List Char :=
  let r9 := r8.dropWhile pyWs
  let r10 := match r9 with
    | ']' :: t => t
    | _ => r9
  let r11 := r10.dropWhile pyWs
  if startsWithL r11 ("**").data then r11.drop 2
  else match r11 with
    | ':' :: t => t
    | _ => r11

/-- Try to match the heading pattern exactly at the head of `cs` (`atStart`
says whether this position is the start of the whole string, enabling the `^`
alternative of `(?:\n|^)`; the `\n` branch and the `^` branch converge
because the following `\s*` also absorbs a newline).  Returns the captured
digit run and the rest of the input after the match.  The optional groups
before `(\d+)` are handled inside `matchHeadingPrefix`: the square-bracket
alternative cannot steal a digit, so greedy matching is deterministic. -/
def matchHeading (atStart : Bool) (cs : List Char) :
    Option (List Char × List Char) :=
  match matchHeadingPrefix atStart cs with
  | none => none
  | some r7 =>
    let digits := r7.takeWhile isDigitC
    if digits.isEmpty then none
    else some (digits, matchHeadingTail (r7.dropWhile isDigitC))

/-- Leftmost heading match in `cs`: offset of the match start, the captured
digits, and the rest after the match. -/
def findHeading (atStart : Bool) (cs : List Char) :
    Option (Nat × List Char × List Char) :=
  match cs with
  | [] => (matchHeading atStart []).map (fun p => (0, p.1, p.2))
  | c :: t =>
    match matchHeading atStart (c :: t) with
    | some p => some (0, p.1, p.2)
    | none => (findHeading false t).map (fun p => (p.1 + 1, p.2.1, p.2.2))

/-- `re.split` with the one capturing group: returns the preamble (text before
the first match) and the `(captured digits, following segment)` pairs. -/
def headingParts : Nat → Bool → List Char →
    List Char × List (List Char × List Char)
  | 0, _, cs => (cs, [])
  | fuel + 1, atStart, cs =>
    match findHeading atStart cs with
    | none => (cs, [])
    | some (i, d, rest) =>
      let r := headingParts fuel false rest
      (cs.take i, (d, r.1) :: r.2)

/-- `split_generated_content`: split the raw generation text into
`questionN -> chunk`, preferring the explicit `|||QUESTION_START|||`
delimiter, then the heading regex, then the whole text as `question1`. -/
def splitGeneratedContent (text : List Char) : List (String × List Char) :=
  if !containsSubL text ("|||QUESTION_START|||").data then
    let p := headingParts (text.length + 1) true text
    if !p.2.isEmpty then
      p.2.foldl
        (fun m e =>
          alSet m ("question" ++ String.mk e.1)
            (pyStripL
              (("**Question [").data ++ e.1 ++ ("]**\n").data ++ e.2))) []
    else [(("question1"), text)]
  else
    let parts := splitOnL text ("|||QUESTION_START|||").data
    let startIndex :=
      if startsWithL (pyStripL text) ("|||QUESTION_START|||").data then 1
      else if parts.length > 1 then 1
      else 0
    ((parts.drop startIndex).foldl
      (fun (acc : List (String × List Char) × Nat) part =>
        let content := pyStripL part
        if content.isEmpty then acc
        else
          (alSet acc.1 ("question" ++ String.mk (natDec acc.2)) content,
            acc.2 + 1))
      ([], 1)).1

/-! ## The Batch Flow Runner (`process_single_batch_flow`)

The Model Client boundary is a parameter: the generation outcome is given as
a `ModelResult` (the dict `generate_raw_batch` returns, with errors as data)
and the validation client is a function from call key and prompt to a
`ModelResult`. -/

/-- The `{text, elapsed, error?}` dict returned across the Model Client
boundary. -/
structure ModelResult where
  text : List Char := []
  error : Option String := none
  elapsed : Nat := 0
deriving DecidableEq, Repr

/-- One validation request issued by `validate_single_item` (its
`f"{batch_key}_{q_key}"` log key and the prompt sent to the model). -/
structure ValCall where
  key : String
  prompt : List Char
deriving DecidableEq, Repr

/-- `q_config.get('mcq_type') or q_config.get('fib_type') or
q_config.get('descriptive_type') or "Standard"` (Python falsy chaining). -/
def specifierOf (q : Request) : String :=
  let pick : Option String → Option String := fun o =>
    match o with
    | some s => if s = "" then none else some s
    | none => none
  ((((pick q.mcqType).orElse (fun _ => pick q.fibType)).orElse
    (fun _ => pick q.descriptiveType)).getD ("Standard"))

/-- The per-question context line built inside `validate_single_item`
(including its `int(q_key.replace("question", "")) - 1` index recovery with
`except → 0`, and the bounds-checked `questions[idx]` with `{}` fallback). -/
def contextLineOf (questions : List Request) (qKey : List Char) : List Char :=
  let digits := replaceL qKey ("question").data []
  let idx : Int :=
    match pyInt digits with
    | some n => n - 1
    | none => 0
  let qc : Option Request :=
    if 0 ≤ idx ∧ idx < questions.length then questions.get? idx.toNat else none
  let topicStr :=
    match qc with
    | some q => q.topic.getD ("Unknown")
    | none => "Unknown"
  let qNotes :=
    match qc with
    | some q => q.additionalNotesText.getD ("")
    | none => ""
  let spec :=
    match qc with
    | some q => specifierOf q
    | none => "Standard"
  let base :=
    ("Question Context: Topic='").data ++ topicStr.data ++
      ("', Type='").data ++ spec.data ++ ("'").data
  if qNotes ≠ "" then base ++ (", Notes='").data ++ qNotes.data ++ ("'").data
  else base

/-- The prompt built by `validate_single_item` from the validation template
(`structure_format` is the hard-coded `"Return a valid JSON object."`). -/
def buildValPrompt (template : List Char) (questions : List Request)
    (qKey qText : List Char) : List Char :=
  let p := replaceL template ("\x7b\x7bGENERATED_CONTENT\x7d\x7d").data qText
  let p := replaceL p ("\x7b\x7bINPUT_CONTEXT\x7d\x7d").data
    (contextLineOf questions qKey)
  replaceL p ("\x7b\x7bOUTPUT_FORMAT_RULES\x7d\x7d").data
    ("Return a valid JSON object.").data

/-- `extract_first_json_match`: find the first `{`, `raw_decode` there
(default strict decoder), `None` on any failure.  A decode starting at `{`
always yields an object. -/
def extractFirstJsonMatch (text : List Char) :
    Option (List (List Char × JsonVal)) :=
  match findSubIdx text ['{'] with
  | none => none
  | some i =>
    match rawDecode true text i with
    | some (JsonVal.obj o, _) => some o
    | _ => none

/-- `extract_core_skill_metadata`: accept the first JSON object if it is
truthy and holds at least one recognised summary key; coerce list values to
comma-joined strings and other values through `str`. -/
def extractCoreSkillMetadata (responseText : List Char) :
    List (List Char × List Char) :=
  match extractFirstJsonMatch responseText with
  | some metadata =>
    if metadata.isEmpty then []
    else
      let requiredKeys : List String :=
        [("batch_summary"), ("core_equation"), ("solution_pattern"),
          ("scenario_signature"), ("context_domain"), ("answer_form")]
      if requiredKeys.any (fun k => (alGet metadata k.data).isSome) then
        metadata.foldl
          (fun acc e =>
            match e.2 with
            | JsonVal.arr l =>
              alSet acc e.1
                (joinWith (", ").data (l.map (pyStrVal responseText.length)))
            | v => alSet acc e.1 (pyStrVal responseText.length v)) []
      else []
  | none => []

/-- `cleaner_text = raw_text.replace('```json', '').replace('```',
'').strip()` in the aggregation loop. -/
def aggCleanerText (rawText : List Char) : List Char :=
  pyStripL (replaceL (replaceL rawText ("```json").data []) ("```").data [])

/-- The Stage-4 aggregation of one validation response: strip code fences by
plain `str.replace`, extract the first JSON object from the cleaned text
(falling back to the original), take its first value, else keep the raw
response text (`if data:` is Python truthiness, so an empty object also falls
through). -/
def aggregateItem (rawText : List Char) : JsonVal :=
  match extractFirstJsonMatch (aggCleanerText rawText) with
  | some ((_, v) :: _) => v
  | _ =>
    match extractFirstJsonMatch rawText with
    | some ((_, v) :: _) => v
    | _ => JsonVal.str rawText

/-- The outcome of one batch's generate → split → validate → aggregate flow.
`validatedText`/`validatedError`/`totalValElapsed` model the `validated`
payload (the source stores `total_val_time / max(n, 1)`, a float; the claims
never read it, so the total is kept).  `validationCalls` records every
request issued to the Model Client during Stage 3, in order. -/
structure FlowResult where
  raw : ModelResult
  validatedText : List Char
  validatedError : Option String
  totalValElapsed : Nat
  aggregated : List (List Char × JsonVal)
  validationCalls : List ValCall
  metadata : List (List Char × List Char)

/-- `process_single_batch_flow` for one batch, given the generation outcome
and the validation side of the Model Client. -/
def processSingleBatchFlow (batchKey : String) (questions : List Request)
    (coreSkillEnabled : Bool) (validationPromptTemplate : List Char)
    (genResult : ModelResult) (valClient : String → List Char → ModelResult) :
    FlowResult :=
  let metadata :=
    if coreSkillEnabled && genResult.error.isNone then
      extractCoreSkillMetadata genResult.text
    else []
  if genResult.error.isSome then
    { raw := genResult
      validatedText := []
      validatedError := some ("Skipped due to generation failure")
      totalValElapsed := 0
      aggregated := []
      validationCalls := []
      metadata := metadata }
  else
    let splitQuestions := splitGeneratedContent genResult.text
    let items : List (String × ValCall × ModelResult) :=
      splitQuestions.map (fun e =>
        let callKey := batchKey ++ "_" ++ e.1
        let prompt := buildValPrompt validationPromptTemplate questions
          e.1.data e.2
        (e.1, ⟨callKey, prompt⟩, valClient callKey prompt))
    let aggregated :=
      splitQuestions.foldl (fun m e =>
        alSet m e.1.data (aggregateItem (valClient (batchKey ++ "_" ++ e.1)
          (buildValPrompt validationPromptTemplate questions
            e.1.data e.2)).text)) []
    let bound := (items.map (fun it => it.2.2.text.length)).sum
    { raw := genResult
      validatedText := dumpsObj bound aggregated
      validatedError := none
      totalValElapsed := (items.map (fun it => it.2.2.elapsed)).sum
      aggregated := aggregated
      validationCalls := items.map (fun it => it.2.1)
      metadata := metadata }

/-! ## The Pipeline Scheduler (`process_batches_pipeline`) -/

/-- The parallel-mode gather step (`asyncio.gather(..., return_exceptions =
True)` followed by the aggregation loop): each outcome is either a result
dict or an exception value; dicts have their `_metadata` key popped and are
merged into the result map, exceptions are logged and skipped.  The payload
type is abstract: the loop never inspects it. -/
def parallelGatherStep {α : Type} (acc : List (String × α))
    (r : Except String (List (String × α))) : List (String × α) :=
  match r with
  | .ok res => alUpdate acc (alPop res ("_metadata"))
  | .error _ => acc

/-- The parallel-mode result aggregation over all batch-task outcomes. -/
def parallelGather {α : Type} (results : List (Except String (List (String × α)))) :
    List (String × α) :=
  results.foldl parallelGatherStep []

/-- The sequential-mode metadata accumulation step (`batch_metadata =
result.pop('_metadata')` followed by the merge loop): an empty batch dict
changes nothing; an empty accumulator is replaced by a copy of the batch
dict; otherwise, per batch key, append `", " + new` to an existing entry
unless the new value strips to empty, and insert unknown keys fresh. -/
def mergeAccumulatedMetadata (acc batch : List (List Char × List Char)) :
    List (List Char × List Char) :=
  if batch.isEmpty then acc
  else if acc.isEmpty then batch
  else
    batch.foldl
      (fun a e =>
        match alGet a e.1 with
        | some cur =>
          if (pyStripL e.2).isEmpty then a
          else alSet a e.1 (cur ++ (", ").data ++ e.2)
        | none => alSet a e.1 e.2) acc

/-- The accumulator state after the first `n` batches of one type have been
merged in sequential (core-skill) mode, given each batch's extracted
metadata. -/
def accumulatedAfter (ms : List (List (List Char × List Char))) (n : Nat) :
    List (List Char × List Char) :=
  (ms.take n).foldl mergeAccumulatedMetadata []

/-! ## The Regeneration Remapper (`regenerate_specific_questions_pipeline`) -/

/-- Python `f"{i}"` for an int. -/
def intStr (i : Int) : String :=
  match i with
  | .ofNat n => toString n
  | .negSucc n => "-" ++ toString (n + 1)

/-- `q_type.split(' - Batch ')[0]`. -/
def baseTypeOf (key : String) : String :=
  String.mk ((splitOnL key.data (" - Batch ").data).headD key.data)

/-- `int(q_type.split(' - Batch ')[1])` guarded by `' - Batch ' in q_type`,
with `except: batch_num = 1`. -/
def parseBatchNum (qtypeKey : String) : Int :=
  if containsSubL qtypeKey.data (" - Batch ").data then
    match (splitOnL qtypeKey.data (" - Batch ").data).get? 1 with
    | some part => (pyInt part).getD 1
    | none => 1
  else 1

/-- `target_global_idx = (batch_num - 1) * BATCH_SIZE + (idx - 1)`. -/
def regenTargetIdx (qtypeKey : String) (idx : Int) : Int :=
  (parseBatchNum qtypeKey - 1) * (DEFAULT_BATCH_SIZE : Int) + (idx - 1)

/-- The remapper's per-type grouping `grouped_map[q.get('type',
'MCQ')].append(q)` of the caller's `original_config`, tracked by list
position so that in-place mutation of the shared dicts can be modelled. -/
def groupPositionsByType (cfg : List Request) : List (String × List Nat) :=
  cfg.enum.foldl (fun m p => dictAppend m (typeOf p.2) p.1) []

/-- The request `regenerate_specific_questions_pipeline` selects for the
regeneration entry `(q_type, idx)`: position `offset + (idx - 1)` of the
raw per-type list `grouped_map[base_type]`, or `none` when out of bounds or
the base type is unknown. -/
def regenResolve (cfg : List Request) (qtypeKey : String) (idx : Int) :
    Option Request :=
  match alGet (groupPositionsByType cfg) (baseTypeOf qtypeKey) with
  | none => none
  | some positions =>
    let target := regenTargetIdx qtypeKey idx
    if 0 ≤ target ∧ target < positions.length then
      (positions.get? target.toNat).bind cfg.get?
    else none

/-- The per-type list the Topic Packer produced for type `t` — the list whose
batch-size slices were the original batches. -/
def packedListFor (cfg : List Request) (t : String) : List Request :=
  (alGet (groupQuestionsByTypeAndTopic cfg) t).getD []

/-- The request that actually sat at 1-based in-batch position `idx` of
`"{t} - Batch {batchNum}"` when the original run sliced the packed list. -/
def packedBatchItem (cfg : List Request) (t : String) (batchNum idx : Nat) :
    Option Request :=
  ((chunkList (packedListFor cfg t)).get? (batchNum - 1)).bind
    (fun b => b.get? (idx - 1))

/-- The caller-supplied configuration the remapper reads:
`general_config['existing_content_map']` (batch key → normalized question
map) and `general_config['regeneration_reasons_map']`. -/
structure RegenConfig where
  existingContentMap : List (String × List (String × String)) := []
  regenReasonsMap : List (String × String) := []

/-- The in-place tagging the remapper performs on one selected request dict:
set `_is_being_regenerated`, attach `original_text` when the existing content
map has a non-empty entry for this batch key and in-batch index, attach
`regeneration_reason` when a non-empty reason is mapped for
`f"{q_type}:{idx}"`. -/
def applyRegenTags (gc : RegenConfig) (qtypeKey : String) (idx : Int)
    (q : Request) : Request :=
  let q1 := { q with isBeingRegenerated := true }
  let q2 :=
    match alGet gc.existingContentMap qtypeKey with
    | some m =>
      let originalText := (alGet m ("question" ++ intStr idx)).getD ("")
      if originalText ≠ "" then { q1 with originalText := some originalText }
      else q1
    | none => q1
  let reason :=
    (alGet gc.regenReasonsMap (qtypeKey ++ ":" ++ intStr idx)).getD ("")
  if reason ≠ "" then { q2 with regenerationReason := some reason } else q2

/-- The remapper's mutable state: the caller's `original_config` list (whose
dicts are mutated through the aliases held by `grouped_map`), the
`filtered_config` being collected, and the store positions that were
resolved (in processing order). -/
structure RegenState where
  store : List Request
  filtered : List Request
  touched : List Nat

/-- One inner-loop iteration of the remapper for in-batch index `idx` of the
regeneration-map key `qtypeKey`: resolve the global index, mutate the
caller's dict in place, and append a copy with `type` overwritten by the
batch-qualified key; out-of-bounds indices are skipped. -/
def regenStepIdx (gc : RegenConfig)
    (positionsByType : List (String × List Nat)) (qtypeKey : String)
    (st : RegenState) (idx : Int) : RegenState :=
  match alGet positionsByType (baseTypeOf qtypeKey) with
  | none => st
  | some positions =>
    let target := regenTargetIdx qtypeKey idx
    if 0 ≤ target ∧ target < positions.length then
      match positions.get? target.toNat with
      | some p =>
        match st.store.get? p with
        | some q =>
          let q' := applyRegenTags gc qtypeKey idx q
          { store := st.store.set p q'
            filtered := st.filtered ++ [{ q' with qtype := some qtypeKey }]
            touched := st.touched ++ [p] }
        | none => st
      | none => st
    else st

/-- The remapper's full selection phase over the caller's regeneration map
(keys whose base type is absent from the config are skipped whole). -/
def regenerateResolveAll (cfg : List Request)
    (rmap : List (String × List Int)) (gc : RegenConfig) : RegenState :=
  let positionsByType := groupPositionsByType cfg
  rmap.foldl
    (fun st e =>
      if (alGet positionsByType (baseTypeOf e.1)).isSome then
        e.2.foldl (regenStepIdx gc positionsByType e.1) st
      else st)
    { store := cfg, filtered := [], touched := [] }

/-! ## The Output Normalizer (`result_renderer.py`) -/

/-- `unescape_json_string`: replace literal `\\n`/`\\t`/`\\r` escape pairs,
then, for single-line text, round-trip through a quoted JSON string (any
failure — e.g. a control character under the strict decoder — falls back to
plain replacement of `\n`, `\t`, `\r`). -/
def unescapeJsonString (s : List Char) : List Char :=
  let s := replaceL s ("\\\\n").data ['\n']
  let s := replaceL s ("\\\\t").data ['\t']
  let s := replaceL s ("\\\\r").data ['\r']
  let manual : List Char :=
    replaceL (replaceL (replaceL s ("\\n").data ['\n']) ("\\t").data ['\t'])
      ("\\r").data ['\r']
  if !s.contains '\n' then
    let escaped := replaceL s ['"'] ['\\', '"']
    match jsonLoads true ('"' :: escaped ++ ['"']) with
    | some (JsonVal.str r) => r
    | _ => manual
  else manual

/-- While-loop body of `extract_json_objects`: skip whitespace, jump to the
next `{` (`text.find('{', pos)` also covers the case where `text[pos]` is
already `{`), `raw_decode` there with `strict=False`; on success collect the
object and resume at its end, on failure resume one character later. -/
def extractJsonObjectsGo : Nat → List Char → Nat →
    List (List (List Char × JsonVal))
  | 0, _, _ => []
  | fuel + 1, s, pos =>
    if pos ≥ s.length then []
    else
      let pos := pos + ((s.drop pos).takeWhile pyWs).length
      if pos ≥ s.length then []
      else
        match (findSubIdx (s.drop pos) ['{']).map (· + pos) with
        | none => []
        | some p =>
          match rawDecode false s p with
          | some (JsonVal.obj o, endPos) => o :: extractJsonObjectsGo fuel s endPos
          | some (_, endPos) => extractJsonObjectsGo fuel s endPos
          | none => extractJsonObjectsGo fuel s (p + 1)

/-- `extract_json_objects`: every top-level JSON object found by scanning
left to right with a non-strict streaming decoder. -/
def extractJsonObjects (s : List Char) : List (List (List Char × JsonVal)) :=
  extractJsonObjectsGo (s.length + 1) s 0

/-- Either quote character, for the `["\']` classes of the last-resort
pattern. -/
def isQuoteC (c : Char) : Bool :=
  c = '"' || c = '\''

/-- Try the last-resort pattern
`["\'](question\d+)["\']\s*:\s*["\'](.*?)["\']` (DOTALL, IGNORECASE) exactly
at the head of `cs`; returns (captured key, captured value).  The lazy value
group captures up to the first following quote. -/
def matchLastResortAt (cs : List Char) : Option (List Char × List Char) :=
  match cs with
  | [] => none
  | c :: t =>
    if !isQuoteC c then none
    else if !(lowerL (t.take 8) = ("question").data) then none
    else
      let afterQ := t.drop 8
      let digits := afterQ.takeWhile isDigitC
      if digits.isEmpty then none
      else
        match afterQ.dropWhile isDigitC with
        | q2 :: r2 =>
          if !isQuoteC q2 then none
          else
            match r2.dropWhile pyWs with
            | ':' :: r4 =>
              match r4.dropWhile pyWs with
              | q3 :: r6 =>
                if !isQuoteC q3 then none
                else
                  let v := r6.takeWhile (fun c => !isQuoteC c)
                  match r6.drop v.length with
                  | _ :: _ => some (t.take 8 ++ digits, v)
                  | [] => none
              | [] => none
            | _ => none
        | [] => none

/-- `re.search` for the last-resort pattern: leftmost match wins. -/
def searchLastResort (cs : List Char) : Option (List Char × List Char) :=
  match matchLastResortAt cs with
  | some r => some r
  | none =>
    match cs with
    | [] => none
    | _ :: t => searchLastResort t

/-- `re.search(r"\d+", k)`: the first maximal digit run (empty if none). -/
def firstDigitRun (l : List Char) : List Char :=
  match l with
  | [] => []
  | c :: t => if isDigitC c then c :: t.takeWhile isDigitC else firstDigitRun t

/-- `re.sub(r"^```(?:json)?\s*\n?", "", text, flags=IGNORECASE)`: anchored at
the string start, so at most one substitution; the greedy `\s*` absorbs the
optional `\n`. -/
def stripFenceStart (cs : List Char) : List Char :=
  if startsWithL cs ("```").data then
    let r := cs.drop 3
    let r := if lowerL (r.take 4) = ("json").data then r.drop 4 else r
    r.dropWhile pyWs
  else cs

/-- Leftmost match of `\n?\s*```$` (`$` matches at the end or just before a
final newline): returns the span `(start, end)` of the matched text. -/
def fenceEndSearch : List Char → Nat → Option (Nat × Nat)
  | cs, i =>
    let wsLen := (cs.takeWhile pyWs).length
    let rest := cs.drop wsLen
    if startsWithL rest ("```").data &&
        ((rest.drop 3).isEmpty || rest.drop 3 = ['\n']) then
      some (i, i + wsLen + 3)
    else
      match cs with
      | [] => none
      | _ :: t => fenceEndSearch t (i + 1)

/-- `re.sub(r"\n?\s*```$", "", text)` (at most one match can touch the
string's end). -/
def stripFenceEnd (cs : List Char) : List Char :=
  match fenceEndSearch cs 0 with
  | some (i, e) => cs.take i ++ cs.drop e
  | none => cs

/-- Step 1 of `normalize_llm_output_to_questions`: strip, unwrap a quoted
JSON string literal, strip the markdown code fences, strip again. -/
def cleanupNormalizeInput (s : List Char) : List Char :=
  let t := pyStripL s
  let t :=
    if t.head? = some '"' ∧ t.getLast? = some '"' then
      match jsonLoads true t with
      | some (JsonVal.str u) => u
      | _ => t
    else t
  let t := stripFenceStart t
  let t := stripFenceEnd t
  pyStripL t

/-- `re.match(r'^(question|q)\d+$', k, re.IGNORECASE)` as a predicate. -/
def isQuestionKeyPattern (k : List Char) : Bool :=
  let l := lowerL k
  (startsWithL l ("question").data && !(l.drop 8).isEmpty &&
      (l.drop 8).all isDigitC) ||
    (startsWithL l ("q").data && !(l.drop 1).isEmpty &&
      (l.drop 1).all isDigitC)

/-- The string-valued normalization branch for one `questionN` key: strip,
de-fence, and for `{`-led text try a strict full JSON parse, preferring an
exact key match, then the first string value under a "question"-ish key,
else the unescaped text itself. -/
def applyStrValue (qs : List (String × String)) (nk : String) (v : List Char) :
    List (String × String) :=
  let s := pyStripL v
  let s :=
    if startsWithL s ("```").data then stripFenceEnd (stripFenceStart s) else s
  if s.head? = some '{' then
    match jsonLoads true s with
    | some (JsonVal.obj parsed) =>
      match alGet parsed nk.data with
      | some (JsonVal.str r) => alSet qs nk (String.mk (unescapeJsonString r))
      | some vInner => alSet qs nk (String.mk (pyStrVal s.length vInner))
      | none =>
        match parsed.find? (fun e =>
            match e.2 with
            | JsonVal.str _ => containsSubL (lowerL e.1) ("question").data
            | _ => false) with
        | some (_, JsonVal.str iv) =>
          alSet qs nk (String.mk (unescapeJsonString iv))
        | _ => alSet qs nk (String.mk (unescapeJsonString s))
    | some _ => alSet qs nk (String.mk (unescapeJsonString s))
    | none => alSet qs nk (String.mk (unescapeJsonString s))
  else alSet qs nk (String.mk (unescapeJsonString s))

/-- The dict-valued normalization branch for one `questionN` key: the
`or`-chain `content or value or markdown or text` yields the first truthy of
the first three lookups, else whatever `get('text')` returns — including a
falsy value such as `""` (stored, being a `str`) or `None` (absent key).
A string result is stored unescaped; otherwise the first string-valued entry
of the dict, else an indent-2 JSON dump of the whole dict. -/
def applyDictValue (bound : Nat) (qs : List (String × String)) (nk : String)
    (o : List (List Char × JsonVal)) : List (String × String) :=
  let pickT : Option JsonVal → Option JsonVal := fun ov =>
    match ov with
    | some v => if jsonTruthy v then some v else none
    | none => none
  let extracted :=
    (((pickT (alGet o ("content").data)).orElse
        (fun _ => pickT (alGet o ("value").data))).orElse
      (fun _ => pickT (alGet o ("markdown").data))).orElse
      (fun _ => alGet o ("text").data)
  match extracted with
  | some (JsonVal.str s) => alSet qs nk (String.mk (unescapeJsonString s))
  | _ =>
    match o.find? (fun e =>
        match e.2 with
        | JsonVal.str _ => true
        | _ => false) with
    | some (_, JsonVal.str iv) => alSet qs nk (String.mk (unescapeJsonString iv))
    | _ => alSet qs nk (String.mk (dumpsIndent2 bound (JsonVal.obj o)))

/-- The per-target key/value loop of the normalizer: keep only
`(question|q)\d+`-shaped keys, rename them to `question<digits>`, and
normalize the value by its shape (falsy non-string, non-dict values assign
nothing). -/
def processTarget (bound : Nat) (qs : List (String × String))
    (target : List (List Char × JsonVal)) : List (String × String) :=
  target.foldl
    (fun qs e =>
      if !isQuestionKeyPattern e.1 then qs
      else
        let num := firstDigitRun e.1
        if num.isEmpty then qs
        else
          let nk := "question" ++ String.mk num
          match e.2 with
          | JsonVal.str v => applyStrValue qs nk v
          | JsonVal.obj o => applyDictValue bound qs nk o
          | v =>
            if jsonTruthy v then alSet qs nk (String.mk (pyStrVal bound v))
            else qs) qs

/-- The target list for one extracted object: the object itself, plus a
truthy `CORRECTED_ITEM`/`corrected_item` payload when it is a dict. -/
def targetsOf (o : List (List Char × JsonVal)) :
    List (List (List Char × JsonVal)) :=
  if (alGet o ("CORRECTED_ITEM").data).isSome ||
      (alGet o ("corrected_item").data).isSome then
    let nested :=
      match alGet o ("CORRECTED_ITEM").data with
      | some v =>
        if jsonTruthy v then some v else alGet o ("corrected_item").data
      | none => alGet o ("corrected_item").data
    match nested with
    | some (JsonVal.obj n) => [o, n]
    | _ => [o]
  else [o]

/-- The garbled byte sequence replaced by `"OPTIONS"` in the normalizer's
final pass (the renderer's literal, codepoint for codepoint). -/
def garbledOptions : List Char :=
  ("‡§ë‡§™‡•ç‡§∂‡§Ç‡§∏").data

/-- `normalize_llm_output_to_questions`: the single normalization boundary.
Total by construction — every parse failure lands in a fallback branch. -/
def normalizeLlmOutputToQuestions (s : List Char) : List (String × String) :=
  let text := cleanupNormalizeInput s
  let jsonObjects := extractJsonObjects text
  if jsonObjects.isEmpty then
    if !(pyStripL text).isEmpty then
      match searchLastResort text with
      | some (k, v) =>
        let num := firstDigitRun k
        if num.isEmpty then []
        else [("question" ++ String.mk num, String.mk (unescapeJsonString v))]
      | none => [(("question1"), String.mk text)]
    else []
  else
    let bound := s.length
    let qs :=
      jsonObjects.foldl
        (fun qs o => (targetsOf o).foldl (processTarget bound) qs) []
    qs.map (fun e =>
      (e.1, String.mk (replaceL e.2.data garbledOptions ("OPTIONS").data)))

/-- `normalize_llm_output_to_questions` on a `String`. -/
def normalizeS (s : String) : List (String × String) :=
  normalizeLlmOutputToQuestions s.data

/-! ## Helper lemmas about the ordered-dict operations -/

theorem alGet_alSet_self {κ α : Type} [DecidableEq κ] (m : List (κ × α))
    (k : κ) (v : α) : alGet (alSet m k v) k = some v := by
  induction m with
  | nil => simp [alSet, alGet]
  | cons e t ih =>
    obtain ⟨k', v'⟩ := e
    by_cases h : k' = k <;> simp [alSet, alGet, h, ih]

theorem alGet_alSet_ne {κ α : Type} [DecidableEq κ] (m : List (κ × α))
    (k k' : κ) (v : α) (h : k' ≠ k) :
    alGet (alSet m k v) k' = alGet m k' := by
  induction m with
  | nil =>
    simp [alSet, alGet]
    intro hh
    exact absurd hh.symm h
  | cons e t ih =>
    obtain ⟨k0, v0⟩ := e
    by_cases h0 : k0 = k <;> by_cases h1 : k0 = k' <;>
      simp_all [alSet, alGet]

theorem alGet_alSet_isSome {κ α : Type} [DecidableEq κ] (m : List (κ × α))
    (k k' : κ) (v : α) :
    (alGet (alSet m k v) k').isSome ↔ k' = k ∨ (alGet m k').isSome := by
  by_cases h : k' = k
  · subst h
    simp [alGet_alSet_self]
  · simp [alGet_alSet_ne m k k' v h, h]

theorem alSet_fresh {κ α : Type} [DecidableEq κ] (m : List (κ × α)) (k : κ)
    (v : α) (h : k ∉ alKeys m) : alSet m k v = m ++ [(k, v)] := by
  induction m with
  | nil => simp [alSet]
  | cons e t ih =>
    obtain ⟨k0, v0⟩ := e
    simp only [alKeys, List.map_cons, List.mem_cons, not_or] at h
    have hne : ¬k0 = k := fun hh => h.1 hh.symm
    simp only [alSet, hne, if_false, List.cons_append]
    rw [ih (by simpa [alKeys] using h.2)]

theorem alKeys_alSet_mem {κ α : Type} [DecidableEq κ] (m : List (κ × α))
    (k : κ) (v : α) (h : k ∈ alKeys m) : alKeys (alSet m k v) = alKeys m := by
  induction m with
  | nil => simp [alKeys] at h
  | cons e t ih =>
    obtain ⟨k0, v0⟩ := e
    by_cases h0 : k0 = k
    · simp [alSet, h0, alKeys]
    · simp only [alKeys, List.map_cons, List.mem_cons] at h
      rcases h with h | h
      · exact absurd h.symm h0
      · have := ih (by simpa [alKeys] using h)
        simp only [alSet, h0, if_false, alKeys, List.map_cons]
        simp only [alKeys] at this
        rw [this]

theorem foldl_alSet_fresh {κ α : Type} [DecidableEq κ]
    (l : List (κ × α)) (acc : List (κ × α))
    (hd : (alKeys l).Nodup) (hfresh : ∀ e ∈ l, e.1 ∉ alKeys acc) :
    l.foldl (fun m e => alSet m e.1 e.2) acc = acc ++ l := by
  induction l generalizing acc with
  | nil => simp
  | cons e t ih =>
    simp only [List.foldl_cons]
    rw [alSet_fresh acc e.1 e.2 (hfresh e (by simp))]
    rw [ih (acc ++ [e])]
    · simp
    · simp only [alKeys, List.map_cons] at hd
      exact hd.of_cons
    · intro x hx
      simp only [alKeys, List.map_append, List.map_cons, List.map_nil,
        List.mem_append, List.mem_cons]
      rintro (h | h)
      · exact hfresh x (by simp [hx]) h
      · have hx1 : x.1 = e.1 := by simpa using h
        simp only [alKeys, List.map_cons, List.nodup_cons] at hd
        exact hd.1 (hx1 ▸ (List.mem_map_of_mem Prod.fst hx))

theorem alGet_alPop {κ α : Type} [DecidableEq κ] (m : List (κ × α))
    (key k : κ) :
    alGet (alPop m key) k = if k = key then none else alGet m k := by
  induction m with
  | nil => simp [alPop, alGet]
  | cons e t ih =>
    obtain ⟨k0, v0⟩ := e
    by_cases h0 : k0 = key
    · have : alPop ((k0, v0) :: t) key = alPop t key := by
        simp [alPop, List.filter, h0]
      rw [this, ih]
      by_cases h1 : k = key
      · simp [h1]
      · have hne : ¬k0 = k := fun hh => h1 (hh ▸ h0)
        simp [h1, alGet, hne]
    · have : alPop ((k0, v0) :: t) key = (k0, v0) :: alPop t key := by
        simp [alPop, List.filter, h0]
      rw [this]
      by_cases h1 : k0 = k
      · subst h1
        simp [alGet, fun hh : k0 = key => h0 hh]
      · simp [alGet, h1, ih]

theorem alGet_alUpdate_isSome {κ α : Type} [DecidableEq κ]
    (m d : List (κ × α)) (k : κ) :
    (alGet (alUpdate m d) k).isSome ↔
      (alGet m k).isSome ∨ (alGet d k).isSome := by
  induction d generalizing m with
  | nil => simp [alUpdate, alGet]
  | cons e t ih =>
    obtain ⟨k0, v0⟩ := e
    simp only [alUpdate, List.foldl_cons] at *
    rw [ih (alSet m k0 v0), alGet_alSet_isSome]
    have hcons : (alGet ((k0, v0) :: t) k).isSome ↔
        k0 = k ∨ (alGet t k).isSome := by
      by_cases h : k0 = k <;> simp [alGet, h]
    rw [hcons]
    constructor
    · rintro ((h | h) | h)
      · exact Or.inr (Or.inl h.symm)
      · exact Or.inl h
      · exact Or.inr (Or.inr h)
    · rintro (h | (h | h))
      · exact Or.inl (Or.inr h)
      · exact Or.inl (Or.inl h.symm)
      · exact Or.inr h

/-- Key presence in the parallel gather result, with an arbitrary starting
accumulator (induction form). -/
theorem alGet_gather_aux {α : Type}
    (results : List (Except String (List (String × α))))
    (k : String) (acc : List (String × α)) :
    (alGet (results.foldl parallelGatherStep acc) k).isSome ↔
      (alGet acc k).isSome ∨
        ∃ d, Except.ok d ∈ results ∧ k ≠ "_metadata" ∧ (alGet d k).isSome := by
  induction results generalizing acc with
  | nil => simp
  | cons r t ih =>
    simp only [List.foldl_cons]
    rw [ih]
    cases r with
    | ok d =>
      have hpop : (alGet (alPop d ("_metadata")) k).isSome ↔
          k ≠ "_metadata" ∧ (alGet d k).isSome := by
        rw [alGet_alPop]
        by_cases h : k = "_metadata" <;> simp [h]
      have hstep : parallelGatherStep acc (Except.ok d) =
          alUpdate acc (alPop d ("_metadata")) := rfl
      rw [hstep, alGet_alUpdate_isSome, hpop]
      constructor
      · rintro ((h | h) | ⟨d', hd', hk, hs⟩)
        · exact Or.inl h
        · exact Or.inr ⟨d, by simp, h.1, h.2⟩
        · exact Or.inr ⟨d', by simp [hd'], hk, hs⟩
      · rintro (h | ⟨d', hd', hk, hs⟩)
        · exact Or.inl (Or.inl h)
        · rcases List.mem_cons.mp hd' with h | h
          · cases h
            exact Or.inl (Or.inr ⟨hk, hs⟩)
          · exact Or.inr ⟨d', h, hk, hs⟩
    | error e =>
      have hstep : parallelGatherStep acc (Except.error e) = acc := rfl
      rw [hstep]
      constructor
      · rintro (h | ⟨d', hd', hk, hs⟩)
        · exact Or.inl h
        · exact Or.inr ⟨d', by simp [hd'], hk, hs⟩
      · rintro (h | ⟨d', hd', hk, hs⟩)
        · exact Or.inl h
        · rcases List.mem_cons.mp hd' with h | h
          · exact absurd h (by simp)
          · exact Or.inr ⟨d', h, hk, hs⟩

/-- The parallel gather is insensitive to the exception outcomes: folding
over the list with the errors dropped gives the same map. -/
theorem gather_filter_aux {α : Type}
    (results : List (Except String (List (String × α)))) :
    ∀ acc, results.foldl parallelGatherStep acc =
      (results.filter (fun r =>
        match r with
        | .ok _ => true
        | .error _ => false)).foldl parallelGatherStep acc := by
  induction results with
  | nil => intro acc; rfl
  | cons r t ih =>
    intro acc
    cases r with
    | ok d => simpa [List.filter, parallelGatherStep] using ih _
    | error e => simpa [List.filter, parallelGatherStep] using ih _

/-- C7: in parallel mode, the Scheduler's gather/aggregation step (i) returns
a map whose keys come exactly from the non-`_metadata` keys of the
successfully returned batch dicts — so an exception outcome contributes no
entry and removes none of its siblings' entries; (ii) is entirely insensitive
to the exception outcomes in the gathered list (dropping them changes
nothing, so no exception crosses the scheduler boundary); and (iii) a batch
whose generation failed is still represented as data: its flow payload
carries the generation error in `raw.error` and a `validated.error` note,
raising nothing. -/
theorem claim_C7_parallel_failure_isolation {α : Type}
    (results : List (Except String (List (String × α))))
    (batchKey : String) (questions : List Request) (coreSkillEnabled : Bool)
    (template : List Char) (gen : ModelResult)
    (valClient : String → List Char → ModelResult) :
    (∀ k, (alGet (parallelGather results) k).isSome ↔
      ∃ d, Except.ok d ∈ results ∧ k ≠ "_metadata" ∧ (alGet d k).isSome) ∧
    (parallelGather results =
      parallelGather (results.filter (fun r =>
        match r with
        | .ok _ => true
        | .error _ => false))) ∧
    (gen.error.isSome = true →
      (processSingleBatchFlow batchKey questions coreSkillEnabled template gen
        valClient).validatedError = some ("Skipped due to generation failure") ∧
      (processSingleBatchFlow batchKey questions coreSkillEnabled template gen
        valClient).raw.error = gen.error ∧
      (processSingleBatchFlow batchKey questions coreSkillEnabled template gen
        valClient).validationCalls = []) := by
  refine ⟨fun k => ?_, ?_, fun herr => ?_⟩
  · rw [parallelGather, alGet_gather_aux]
    simp [alGet]
  · exact gather_filter_aux results []
  · refine ⟨?_, ?_, ?_⟩ <;> simp [processSingleBatchFlow, herr]

/-- `startsWithL (v ++ r) v` always holds. -/
theorem startsWithL_append (v r : List Char) : startsWithL (v ++ r) v = true := by
  induction v with
  | nil => cases r <;> rfl
  | cons c t ih => simp [startsWithL, ih]

/-- The metadata merge loop's step function. -/
def mergeMetaStep (a : List (List Char × List Char))
    (e : List Char × List Char) : List (List Char × List Char) :=
  match alGet a e.1 with
  | some cur =>
    if (pyStripL e.2).isEmpty then a
    else alSet a e.1 (cur ++ (", ").data ++ e.2)
  | none => alSet a e.1 e.2

/-- Merge-loop steps for other keys do not disturb a lookup. -/
theorem fold_mergeMetaStep_not_mem (t : List (List Char × List Char))
    (k : List Char) (hk : k ∉ alKeys t) :
    ∀ acc, alGet (t.foldl mergeMetaStep acc) k = alGet acc k := by
  induction t with
  | nil => intro acc; rfl
  | cons e s ih =>
    intro acc
    simp only [alKeys, List.map_cons, List.mem_cons, not_or] at hk
    have hne : k ≠ e.1 := hk.1
    have step_eq : alGet (mergeMetaStep acc e) k = alGet acc k := by
      unfold mergeMetaStep
      cases alGet acc e.1 with
      | none => exact alGet_alSet_ne acc e.1 k e.2 hne
      | some cur =>
        by_cases hs : (pyStripL e.2).isEmpty <;>
          simp [hs, alGet_alSet_ne acc e.1 k _ hne]
    rw [List.foldl_cons, ih (by simpa [alKeys] using hk.2), step_eq]

/-- The merge loop's effect on one key that is already present in the
accumulator, given the batch dict has no duplicate keys. -/
theorem fold_mergeMetaStep_lookup (b : List (List Char × List Char))
    (hb : (alKeys b).Nodup) (k v : List Char) :
    ∀ acc, alGet acc k = some v →
      ∃ v', alGet (b.foldl mergeMetaStep acc) k = some v' ∧
        (match alGet b k with
         | some nv =>
           if (pyStripL nv).isEmpty then v' = v
           else v' = v ++ (", ").data ++ nv
         | none => v' = v) := by
  induction b with
  | nil => exact fun acc h => ⟨v, h, rfl⟩
  | cons e t ih =>
    intro acc hacc
    simp only [alKeys, List.map_cons, List.nodup_cons] at hb
    by_cases he : e.1 = k
    · have hbk : alGet ((e.1, e.2) :: t) k = some e.2 := by simp [alGet, he]
      have hkt : k ∉ alKeys t := he ▸ hb.1
      rw [List.foldl_cons, fold_mergeMetaStep_not_mem t k hkt]
      unfold mergeMetaStep
      rw [he, hacc]
      by_cases hs : (pyStripL e.2).isEmpty
      · refine ⟨v, by simp [hs, hacc], ?_⟩
        have : (⟨e.1, e.2⟩ : List Char × List Char) = (e.1, e.2) := rfl
        rw [show ((e.1, e.2) :: t : List (List Char × List Char)) =
          (e.1, e.2) :: t from rfl] at hbk
        simp only [show alGet (e :: t) k = some e.2 by simpa using hbk, hs]
        simp
      · refine ⟨v ++ (", ").data ++ e.2, by simp [hs, alGet_alSet_self], ?_⟩
        simp only [show alGet (e :: t) k = some e.2 by simpa [alGet, he] using rfl, hs]
        simp
    · have hbk : alGet (e :: t) k = alGet t k := by
        have : e = (e.1, e.2) := rfl
        rw [this]
        simp [alGet, he]
      have hstep : alGet (mergeMetaStep acc e) k = some v := by
        unfold mergeMetaStep
        cases alGet acc e.1 with
        | none => rw [alGet_alSet_ne acc e.1 k e.2 (fun hh => he hh.symm)]; exact hacc
        | some cur =>
          by_cases hs : (pyStripL e.2).isEmpty <;>
            simp [hs, alGet_alSet_ne acc e.1 k _ (fun hh => he hh.symm), hacc]
      rw [List.foldl_cons, hbk]
      exact ih hb.2 (mergeMetaStep acc e) hstep

theorem startsWithL_self (v : List Char) : startsWithL v v = true := by
  simpa using startsWithL_append v []

/-- The full merge's effect on a key already present in the accumulator. -/
theorem mergeMeta_lookup (acc b : List (List Char × List Char))
    (hb : (alKeys b).Nodup) (k v : List Char) (h : alGet acc k = some v) :
    ∃ v', alGet (mergeAccumulatedMetadata acc b) k = some v' ∧
      startsWithL v' v = true ∧
      (match alGet b k with
       | some nv =>
         if (pyStripL nv).isEmpty then v' = v
         else v' = v ++ (", ").data ++ nv
       | none => v' = v) := by
  by_cases hbe : b.isEmpty
  · have hb0 : b = [] := by
      cases b with
      | nil => rfl
      | cons e t => simp [List.isEmpty] at hbe
    subst hb0
    refine ⟨v, ?_, startsWithL_self v, ?_⟩
    · simp [mergeAccumulatedMetadata, h]
    · simp [alGet]
  · by_cases hae : acc.isEmpty
    · have : acc = [] := by
        cases acc with
        | nil => rfl
        | cons e t => simp [List.isEmpty] at hae
      subst this
      simp [alGet] at h
    · have hrw : mergeAccumulatedMetadata acc b = b.foldl mergeMetaStep acc := by
        unfold mergeAccumulatedMetadata
        rw [if_neg (by simpa using hbe), if_neg (by simpa using hae)]
        rfl
      rw [hrw]
      obtain ⟨v', hv', hm⟩ := fold_mergeMetaStep_lookup b hb k v acc h
      refine ⟨v', hv', ?_, hm⟩
      revert hm
      cases hbk : alGet b k with
      | none => intro hm; simp only at hm; exact hm ▸ startsWithL_self v
      | some nv =>
        intro hm
        simp only at hm
        by_cases hs : (pyStripL nv).isEmpty
        · rw [if_pos hs] at hm
          exact hm ▸ startsWithL_self v
        · rw [if_neg hs] at hm
          rw [hm, List.append_assoc]
          exact startsWithL_append v _

/-- `accumulated_metadata` after batch `n + 1` is the merge of the state
after batch `n` with batch `n`'s extracted metadata. -/
theorem accumulatedAfter_succ (ms : List (List (List Char × List Char)))
    (n : Nat) (hn : n < ms.length) :
    accumulatedAfter ms (n + 1) =
      mergeAccumulatedMetadata (accumulatedAfter ms n) (ms.get ⟨n, hn⟩) := by
  unfold accumulatedAfter
  rw [List.take_succ, List.foldl_append]
  simp [List.getElem?_eq_getElem hn]

/-- C8 (amended): in sequential (core-skill) mode the per-type metadata
accumulator grows monotonically: after batch `n + 1` its key set contains
every key it had after batch `n`, and an existing key's old value is a
prefix of its new value — extended by `", "` plus the new batch's value when
that value is non-blank (non-empty after stripping whitespace), and left
unchanged when the new batch omits the key or supplies a blank value.  (The
original claim said "non-empty"; a whitespace-only value is non-empty yet is
skipped, see the counterexample.) -/
theorem claim_C8_sequential_metadata_monotone
    (ms : List (List (List Char × List Char))) (n : Nat) (hn : n < ms.length)
    (hnd : (alKeys (ms.get ⟨n, hn⟩)).Nodup) :
    (∀ k, (alGet (accumulatedAfter ms n) k).isSome →
      (alGet (accumulatedAfter ms (n + 1)) k).isSome) ∧
    (∀ k v, alGet (accumulatedAfter ms n) k = some v →
      ∃ v', alGet (accumulatedAfter ms (n + 1)) k = some v' ∧
        startsWithL v' v = true ∧
        (match alGet (ms.get ⟨n, hn⟩) k with
         | some nv =>
           if (pyStripL nv).isEmpty then v' = v
           else v' = v ++ (", ").data ++ nv
         | none => v' = v)) := by
  constructor
  · intro k hk
    obtain ⟨v, hv⟩ := Option.isSome_iff_exists.mp hk
    obtain ⟨v', hv', _, _⟩ :=
      (accumulatedAfter_succ ms n hn) ▸
        mergeMeta_lookup (accumulatedAfter ms n) (ms.get ⟨n, hn⟩) hnd k v hv
    simp [hv']
  · intro k v hv
    exact (accumulatedAfter_succ ms n hn) ▸
      mergeMeta_lookup (accumulatedAfter ms n) (ms.get ⟨n, hn⟩) hnd k v hv

/-- The two-batch metadata run refuting C8 as stated: the second batch
returns the key `k` with the whitespace-only value `" "`. -/
def msC8 : List (List (List Char × List Char)) :=
  [[(("k").data, ("x").data)], [(("k").data, (" ").data)]]

/-- C8 counterexample: with an accumulated value `"x"` for key `k` and a new
batch value `" "` — which is non-empty — the accumulator after the new batch
still maps `k` to `"x"`: the code skips whitespace-only values, whereas the
claim's merge rule (append whenever the new value is non-empty) would
produce `"x,  "`. -/
theorem claim_C8_counterexample :
    alGet (accumulatedAfter msC8 1) (("k").data) = some (("x").data) ∧
    alGet (accumulatedAfter msC8 2) (("k").data) = some (("x").data) ∧
    alGet (msC8.get ⟨1, by decide⟩) (("k").data) = some ((" ").data) ∧
    (" ").data ≠ ([] : List Char) ∧
    ("x").data ≠ ("x").data ++ (", ").data ++ (" ").data := by
  refine ⟨by decide, by decide, by decide, by decide, by decide⟩

/-- The two-batch metadata run exercising the amended C8 positively. -/
def msC8w : List (List (List Char × List Char)) :=
  [[(("k").data, ("a").data)], [(("k").data, ("b").data), (("j").data, ("c").data)]]

/-- C8 witness: on a concrete two-batch run the theorem yields the extended
value `"a, b"` for the key both batches carry. -/
theorem claim_C8_witness :
    alGet (accumulatedAfter msC8w 2) (("k").data) = some (("a, b").data) := by
  have h := claim_C8_sequential_metadata_monotone msC8w 1 (by decide) (by decide)
  obtain ⟨v', hv', hpre, hmatch⟩ := h.2 (("k").data) (("a").data) (by decide)
  have hget : alGet (msC8w.get ⟨1, by decide⟩) (("k").data) =
      some (("b").data) := by decide
  rw [hget] at hmatch
  simp only at hmatch
  rw [if_neg (by decide)] at hmatch
  rw [hmatch] at hv'
  simpa using hv'

/-- C5: for every question type whose naive sequential batching fragments no
topic inefficiently — every topic totalling at least the batch size has a
full batch-size chunk inside a single naive batch, and every topic totalling
less than the batch size sits inside a single naive batch — the Topic Packer
emits that type's question list unchanged, in the caller's order. -/
theorem claim_C5_efficient_types_preserved (qs : List Request) (t : String)
    (l : List Request) (hmem : (t, l) ∈ groupByType (withIndices qs))
    (heff : ∀ e ∈ topicBatchMap l,
      (e.2.length ≥ DEFAULT_BATCH_SIZE → hasFullBatchChunk e.2 = true) ∧
      (e.2.length < DEFAULT_BATCH_SIZE → (distinctList e.2).length ≤ 1)) :
    (t, l) ∈ groupQuestionsByTypeAndTopic qs := by
  have hno : needsOptimization l = false := by
    unfold needsOptimization
    rw [List.any_eq_false]
    intro e he
    have h := heff e he
    unfold topicTrigger
    by_cases hu : (distinctList e.2).length ≤ 1
    · simp [hu]
    · rw [if_neg hu]
      by_cases ht : e.2.length ≥ DEFAULT_BATCH_SIZE
      · have hfull := h.1 ht
        have hnlt : ¬e.2.length < DEFAULT_BATCH_SIZE := Nat.not_lt.mpr ht
        simp [hfull, hnlt]
      · have hlt : e.2.length < DEFAULT_BATCH_SIZE := Nat.not_le.mp ht
        exact absurd (h.2 hlt) hu
  unfold groupQuestionsByTypeAndTopic
  exact List.mem_map.mpr ⟨(t, l), hmem, by simp [hno]⟩

/-- A six-request MCQ run whose naive batches are already topic-efficient
(four `alpha` then two `beta`). -/
def qsC5 : List Request :=
  [{ payload := 0, qtype := some ("MCQ"), topic := some ("alpha") },
   { payload := 1, qtype := some ("MCQ"), topic := some ("alpha") },
   { payload := 2, qtype := some ("MCQ"), topic := some ("alpha") },
   { payload := 3, qtype := some ("MCQ"), topic := some ("alpha") },
   { payload := 4, qtype := some ("MCQ"), topic := some ("beta") },
   { payload := 5, qtype := some ("MCQ"), topic := some ("beta") }]

/-- C5 witness: the efficient six-request run comes out of the Topic Packer
exactly in input order. -/
theorem claim_C5_witness :
    (("MCQ"), withIndices qsC5) ∈ groupQuestionsByTypeAndTopic qsC5 :=
  claim_C5_efficient_types_preserved qsC5 ("MCQ") (withIndices qsC5)
    (by decide) (by decide)

theorem peelLoop_eq (qs : List Request) :
    peelLoop qs =
      (qs.take (DEFAULT_BATCH_SIZE * (qs.length / DEFAULT_BATCH_SIZE)),
        qs.drop (DEFAULT_BATCH_SIZE * (qs.length / DEFAULT_BATCH_SIZE))) := by
  induction qs using peelLoop.induct with
  | case1 a b c d rest ih =>
    have h4 : DEFAULT_BATCH_SIZE *
        ((a :: b :: c :: d :: rest).length / DEFAULT_BATCH_SIZE) =
        DEFAULT_BATCH_SIZE * (rest.length / DEFAULT_BATCH_SIZE) + 4 := by
      simp only [List.length_cons, DEFAULT_BATCH_SIZE]
      omega
    rw [h4]
    simp only [peelLoop, ih, List.take_succ_cons, List.drop_succ_cons]
  | case2 qs h =>
    have hlen : qs.length < DEFAULT_BATCH_SIZE := by
      cases qs with
      | nil => decide
      | cons a t =>
        cases t with
        | nil => simp [DEFAULT_BATCH_SIZE]
        | cons b u =>
          cases u with
          | nil => simp [DEFAULT_BATCH_SIZE]
          | cons c w =>
            cases w with
            | nil => simp [DEFAULT_BATCH_SIZE]
            | cons d r => exact absurd rfl (h a b c d r)
    have h0 : DEFAULT_BATCH_SIZE * (qs.length / DEFAULT_BATCH_SIZE) = 0 := by
      have : qs.length / DEFAULT_BATCH_SIZE = 0 := Nat.div_eq_of_lt hlen
      simp [this]
    rw [h0]
    cases qs with
    | nil => rfl
    | cons a t =>
      cases t with
      | nil => rfl
      | cons b u =>
        cases u with
        | nil => rfl
        | cons c w =>
          cases w with
          | nil => rfl
          | cons d r => exact absurd rfl (h a b c d r)

theorem chunkList_flatten {α : Type} (l : List α) :
    (chunkList l).flatten = l := by
  induction l using chunkList.induct with
  | case1 => rfl
  | case2 a b c d rest ih => simp [chunkList, ih]
  | case3 l h1 h2 => cases l with
    | nil => exact absurd rfl h1
    | cons a t => simp [chunkList]

theorem strLtL_asymm : ∀ a b : List Char, strLtL a b = true → strLtL b a = false
  | [], [], h => by simp [strLtL] at h
  | [], _ :: _, _ => rfl
  | _ :: _, [], h => by simp [strLtL] at h
  | a :: t, b :: u, h => by
    by_cases hab : a = b
    · subst hab
      simp only [strLtL, if_pos rfl] at h ⊢
      exact strLtL_asymm t u h
    · simp only [strLtL, if_neg hab] at h
      have hlt : a < b := of_decide_eq_true h
      have hba : ¬b = a := fun hh => hab hh.symm
      simp only [strLtL, if_neg hba]
      exact decide_eq_false (lt_asymm hlt)

theorem strLtL_trans : ∀ a b c : List Char,
    strLtL a b = true → strLtL b c = true → strLtL a c = true
  | [], b, c, h1, h2 => by
    cases b with
    | nil => simp [strLtL] at h1
    | cons bb bt =>
      cases c with
      | nil => simp [strLtL] at h2
      | cons cc ct => rfl
  | _ :: _, [], _, h1, _ => by simp [strLtL] at h1
  | a :: t, b :: u, c, h1, h2 => by
    cases c with
    | nil => simp [strLtL] at h2
    | cons cc ct =>
      by_cases hab : a = b <;> by_cases hbc : b = cc
      · subst hab; subst hbc
        simp only [strLtL, if_pos rfl] at h1 h2 ⊢
        exact strLtL_trans t u ct h1 h2
      · subst hab
        simp only [strLtL, if_pos rfl] at h1
        simp only [strLtL, if_neg hbc] at h2
        simp only [strLtL, if_neg hbc]
        exact h2
      · subst hbc
        simp only [strLtL, if_neg hab] at h1
        simp only [strLtL, if_neg hab]
        exact h1
      · simp only [strLtL, if_neg hab] at h1
        simp only [strLtL, if_neg hbc] at h2
        have h1' : a < b := of_decide_eq_true h1
        have h2' : b < cc := of_decide_eq_true h2
        have hac : a < cc := lt_trans h1' h2'
        simp only [strLtL, if_neg (ne_of_lt hac)]
        exact decide_eq_true hac

theorem mem_insertSorted (x y : String) (l : List String) :
    y ∈ insertSorted x l ↔ y = x ∨ y ∈ l := by
  induction l with
  | nil => simp [insertSorted]
  | cons z t ih =>
    by_cases h : strLtL x.data z.data = true
    · simp [insertSorted, h]
    · have h' : strLtL x.data z.data = false := by
        cases hh : strLtL x.data z.data
        · rfl
        · exact absurd hh h
      simp only [insertSorted, h', Bool.false_eq_true, if_false,
        List.mem_cons, ih]
      tauto

/-- The "not greater" relation (Python `<=` on strings) under which the
packer's `sorted(...)` output is ascending. -/
def strLeS (a b : String) : Prop :=
  strLtL b.data a.data = false

theorem pairwise_insertSorted (x : String) (l : List String)
    (h : List.Pairwise strLeS l) :
    List.Pairwise strLeS (insertSorted x l) := by
  induction l with
  | nil => exact List.pairwise_singleton _ _
  | cons y t ih =>
    obtain ⟨hy, ht⟩ := List.pairwise_cons.mp h
    by_cases hxy : strLtL x.data y.data = true
    · have hx : ∀ z ∈ y :: t, strLeS x z := by
        intro z hz
        rcases List.mem_cons.mp hz with hz | hz
        · subst hz
          exact strLtL_asymm _ _ hxy
        · have hyz : strLeS y z := hy z hz
          unfold strLeS at hyz ⊢
          cases hzx : strLtL z.data x.data
          · rfl
          · have : strLtL z.data y.data = true :=
              strLtL_trans z.data x.data y.data hzx hxy
            rw [this] at hyz
            exact hyz
      have : insertSorted x (y :: t) = x :: y :: t := by
        simp [insertSorted, hxy]
      rw [this]
      exact List.pairwise_cons.mpr ⟨hx, h⟩
    · have h' : strLtL x.data y.data = false := by
        cases hh : strLtL x.data y.data
        · rfl
        · exact absurd hh hxy
      have : insertSorted x (y :: t) = y :: insertSorted x t := by
        simp [insertSorted, h']
      rw [this]
      refine List.pairwise_cons.mpr ⟨?_, ih ht⟩
      intro z hz
      rcases (mem_insertSorted x z t).mp hz with hz | hz
      · subst hz
        exact h'
      · exact hy z hz

theorem pairwise_sortStrings (l : List String) :
    List.Pairwise strLeS (sortStrings l) := by
  induction l with
  | nil => exact List.Pairwise.nil
  | cons x t ih => exact pairwise_insertSorted x (sortStrings t) ih

theorem packStep_foldl_aux (tm : List (String × List Request)) :
    ∀ (ts : List String) (acc : List Request × List Request),
      ts.foldl (packStep tm) acc =
        (acc.1 ++ ts.flatMap (fun t => (peelLoop ((alGet tm t).getD [])).1),
          acc.2 ++ ts.flatMap (fun t => (peelLoop ((alGet tm t).getD [])).2)) := by
  intro ts
  induction ts with
  | nil => intro acc; simp
  | cons x t ih =>
    intro acc
    rw [List.foldl_cons, ih]
    simp [packStep]

/-- C4 (amended): when re-packing fires, the packed list is the
concatenation, over the normalized topic keys in ascending lexicographic
(Python `sorted`) order — not first-seen order — of each topic's maximal
full-batch prefix, followed by the concatenation, over the same sorted topic
order, of each topic's leftover suffix (each topic's items keeping their
input order; the pool is not re-sorted by `originalIndex`). -/
theorem claim_C4_pack_order (l : List Request) :
    priorityPack l =
      (sortStrings (alKeys (topicMapOf l))).flatMap
        (fun t =>
          let qs := (alGet (topicMapOf l) t).getD []
          qs.take (DEFAULT_BATCH_SIZE * (qs.length / DEFAULT_BATCH_SIZE))) ++
      (sortStrings (alKeys (topicMapOf l))).flatMap
        (fun t =>
          let qs := (alGet (topicMapOf l) t).getD []
          qs.drop (DEFAULT_BATCH_SIZE * (qs.length / DEFAULT_BATCH_SIZE))) ∧
    List.Pairwise strLeS (sortStrings (alKeys (topicMapOf l))) := by
  constructor
  · show (let tm := topicMapOf l
      let sortedTopics := sortStrings (alKeys tm)
      let r := sortedTopics.foldl (packStep tm) ([], [])
      r.1 ++ (chunkList r.2).flatten) = _
    simp only []
    rw [packStep_foldl_aux (topicMapOf l) (sortStrings (alKeys (topicMapOf l)))
      ([], [])]
    simp only [List.nil_append, chunkList_flatten]
    simp only [peelLoop_eq]
  · exact pairwise_sortStrings _

/-- Insert by ascending `originalIndex` (for the spec-worded remainder
pool). -/
def insertByOrig (x : Request) : List Request → List Request
  | [] => [x]
  | y :: t =>
    if x.originalIndex.getD 0 < y.originalIndex.getD 0 then x :: y :: t
    else y :: insertByOrig x t

/-- Sort by ascending `originalIndex` (for the spec-worded remainder
pool). -/
def sortByOrigIdx (l : List Request) : List Request :=
  l.foldr insertByOrig []

/-- Modelled from the spec's step-4 wording (the behaviour the claim
asserts): full chunks peeled topic by topic in FIRST-SEEN topic order, all
leftovers pooled and ordered by `originalIndex`, then sliced into chunks and
appended. -/
def specFirstSeenPack (l : List Request) : List Request :=
  let tm := topicMapOf l
  let topics := alKeys tm
  let fulls := topics.flatMap (fun t =>
    let qs := (alGet tm t).getD []
    qs.take (DEFAULT_BATCH_SIZE * (qs.length / DEFAULT_BATCH_SIZE)))
  let pool := topics.flatMap (fun t =>
    let qs := (alGet tm t).getD []
    qs.drop (DEFAULT_BATCH_SIZE * (qs.length / DEFAULT_BATCH_SIZE)))
  fulls ++ (chunkList (sortByOrigIdx pool)).flatten

/-- Eight same-type requests: topic `c` first seen, fragmented 3 + 1 across
the naive batches (so re-packing fires), and topic `a` holding four
requests. -/
def qsC4 : List Request :=
  [{ payload := 0, qtype := some ("MCQ"), topic := some ("c") },
   { payload := 1, qtype := some ("MCQ"), topic := some ("a") },
   { payload := 2, qtype := some ("MCQ"), topic := some ("c") },
   { payload := 3, qtype := some ("MCQ"), topic := some ("c") },
   { payload := 4, qtype := some ("MCQ"), topic := some ("c") },
   { payload := 5, qtype := some ("MCQ"), topic := some ("a") },
   { payload := 6, qtype := some ("MCQ"), topic := some ("a") },
   { payload := 7, qtype := some ("MCQ"), topic := some ("a") }]

/-- C4 counterexample: re-packing fires, and the packed output starts with
topic `a`'s chunk (sorted order) rather than first-seen topic `c`'s chunk as
the claim dictates — the claim's predicted output differs from the Topic
Packer's. -/
theorem claim_C4_counterexample :
    needsOptimization (withIndices qsC4) = true ∧
    (packedListFor qsC4 ("MCQ")).map Request.payload =
      [1, 5, 6, 7, 0, 2, 3, 4] ∧
    (specFirstSeenPack (withIndices qsC4)).map Request.payload =
      [0, 2, 3, 4, 1, 5, 6, 7] ∧
    packedListFor qsC4 ("MCQ") ≠ specFirstSeenPack (withIndices qsC4) := by
  refine ⟨by decide, by decide, by decide, by decide⟩

/-- Six same-type requests: topic `b` opens and closes the list, topic `a`
holds four requests, so the Topic Packer reorders (`a`-chunk first, then the
`b` remainder) before the original batches are sliced. -/
def qsC1 : List Request :=
  [{ payload := 0, qtype := some ("T"), topic := some ("b") },
   { payload := 1, qtype := some ("T"), topic := some ("a") },
   { payload := 2, qtype := some ("T"), topic := some ("a") },
   { payload := 3, qtype := some ("T"), topic := some ("a") },
   { payload := 4, qtype := some ("T"), topic := some ("a") },
   { payload := 5, qtype := some ("T"), topic := some ("b") }]

/-- C1 fails on the code: regenerating `"T - Batch 1:2"` must resolve to the
request that sat at packed position `offset + (idx - 1) = 1` of the Topic
Packer's output for `T` (payload 2 here, since packing reordered the run),
but `regenerate_specific_questions_pipeline` rebuilds `grouped_map` from the
caller's raw `original_config` order and picks payload 1 instead. -/
theorem claim_C1_regen_resolves_raw_order :
    needsOptimization (withIndices qsC1) = true ∧
    (packedListFor qsC1 ("T")).map Request.payload = [1, 2, 3, 4, 0, 5] ∧
    (packedBatchItem qsC1 ("T") 1 2).map Request.payload = some 2 ∧
    (regenResolve qsC1 ("T - Batch 1") 2).map Request.payload = some 1 ∧
    (regenResolve qsC1 ("T - Batch 1") 2).map Request.payload ≠
      (packedBatchItem qsC1 ("T") 1 2).map Request.payload := by
  refine ⟨by decide, by decide, by decide, by decide, by decide⟩

/-- C2 (amended): for every batch whose generation succeeded, the Batch Flow
Runner issues exactly one Model Client validation call per question chunk
the Split step produced — `len(split_questions)` calls fanned out
concurrently — not one call for the whole batch. -/
theorem claim_C2_one_validation_call_per_chunk (batchKey : String)
    (questions : List Request) (coreSkillEnabled : Bool) (template : List Char)
    (gen : ModelResult) (valClient : String → List Char → ModelResult)
    (h : gen.error = none) :
    (processSingleBatchFlow batchKey questions coreSkillEnabled template gen
      valClient).validationCalls.length =
      (splitGeneratedContent gen.text).length := by
  simp [processSingleBatchFlow, h]

/-- A generation outcome whose text splits into two question chunks. -/
def genC2 : ModelResult :=
  { text := ("|||QUESTION_START|||Alpha body|||QUESTION_START|||Beta body").data
    error := none
    elapsed := 0 }

/-- A validation client answering every request with an empty success. -/
def valClientTriv : String → List Char → ModelResult :=
  fun _ _ => { text := [], error := none, elapsed := 0 }

/-- C2 counterexample: a successfully generated batch whose text splits into
two chunks triggers two validation calls, not the single whole-batch call
the claim asserts. -/
theorem claim_C2_counterexample :
    (processSingleBatchFlow ("MCQ - Batch 1") [] false [] genC2
      valClientTriv).validationCalls.length = 2 ∧ (2 : Nat) ≠ 1 := by
  refine ⟨by decide, by decide⟩

/-- C2 witness: the amended count law evaluated on the two-chunk batch. -/
theorem claim_C2_witness :
    (processSingleBatchFlow ("MCQ - Batch 1") [] false [] genC2
      valClientTriv).validationCalls.length =
      (splitGeneratedContent genC2.text).length ∧
    (splitGeneratedContent genC2.text).length = 2 := by
  refine ⟨claim_C2_one_validation_call_per_chunk ("MCQ - Batch 1") [] false []
    genC2 valClientTriv rfl, by decide⟩

/-- The concrete outcome list for the C7 witness: one plain success, one
exception, one success carrying a `_metadata` entry. -/
def resultsC7 : List (Except String (List (String × Nat))) :=
  [Except.ok [(("A - Batch 1"), 10)], Except.error ("boom"),
    Except.ok [(("B - Batch 1"), 20), (("_metadata"), 30)]]

/-- C7 witness: on the concrete outcome list the successful batch's key is in
the gathered map, `_metadata` is not, and a generation-failed flow carries
its failure as data. -/
theorem claim_C7_witness :
    (alGet (parallelGather resultsC7) ("A - Batch 1")).isSome = true ∧
    (alGet (parallelGather resultsC7) ("_metadata")).isSome = false ∧
    (processSingleBatchFlow ("MCQ - Batch 1") [] false []
      { text := [], error := some ("E"), elapsed := 0 }
      valClientTriv).validatedError =
      some ("Skipped due to generation failure") := by
  have h := claim_C7_parallel_failure_isolation resultsC7 ("MCQ - Batch 1") []
    false [] { text := [], error := some ("E"), elapsed := 0 } valClientTriv
  refine ⟨?_, by decide, (h.2.2 (by decide)).1⟩
  exact (h.1 ("A - Batch 1")).mpr
    ⟨[(("A - Batch 1"), 10)], by unfold resultsC7; exact List.mem_cons_self _ _,
      by decide, by decide⟩

theorem foldl_invariant {α β : Type} (P : α → Prop) (f : α → β → α)
    (l : List β) (init : α) (h0 : P init)
    (hstep : ∀ a b, P a → P (f a b)) : P (l.foldl f init) := by
  induction l generalizing init with
  | nil => exact h0
  | cons x t ih => exact ih (f init x) (hstep init x h0)

theorem alKeys_nodup_alSet {κ α : Type} [DecidableEq κ] (m : List (κ × α))
    (k : κ) (v : α) (h : (alKeys m).Nodup) :
    (alKeys (alSet m k v)).Nodup := by
  by_cases hk : k ∈ alKeys m
  · rw [alKeys_alSet_mem m k v hk]
    exact h
  · rw [alSet_fresh m k v hk]
    simp only [alKeys, List.map_append, List.map_cons, List.map_nil]
    exact List.Nodup.append h (List.nodup_singleton k)
      ((List.disjoint_singleton).mpr hk)

theorem alKeys_alSet_subset {κ α : Type} [DecidableEq κ]
    (m : List (κ × α)) (k : κ) (v : α) :
    ∀ k' ∈ alKeys (alSet m k v), k' = k ∨ k' ∈ alKeys m := by
  induction m with
  | nil => simp [alSet, alKeys]
  | cons e t ih =>
    intro k' hk'
    obtain ⟨k0, v0⟩ := e
    by_cases h0 : k0 = k
    · subst h0
      simp only [alSet, if_pos rfl, alKeys, List.map_cons, List.mem_cons,
        if_true] at hk' ⊢
      tauto
    · simp only [alSet, if_neg h0, alKeys, List.map_cons, List.mem_cons] at hk' ⊢
      rcases hk' with h | h
      · tauto
      · rcases ih k' h with h | h <;> tauto

theorem alGet_of_mem_nodup {κ α : Type} [DecidableEq κ]
    (m : List (κ × α)) (k : κ) (v : α) (hm : (k, v) ∈ m)
    (hnd : (alKeys m).Nodup) : alGet m k = some v := by
  induction m with
  | nil => simp at hm
  | cons e t ih =>
    obtain ⟨k0, v0⟩ := e
    simp only [alKeys, List.map_cons, List.nodup_cons] at hnd
    rcases List.mem_cons.mp hm with h | h
    · obtain ⟨hk, hv⟩ := Prod.mk.injEq .. ▸ h
      cases h
      simp [alGet]
    · have hne : ¬k0 = k := by
        intro hh
        subst hh
        exact hnd.1 (List.mem_map_of_mem Prod.fst h)
      simp only [alGet, if_neg hne]
      exact ih h hnd.2

/-- The split output always has pairwise-distinct keys (it models a Python
dict). -/
theorem split_keys_nodup (text : List Char) :
    (alKeys (splitGeneratedContent text)).Nodup := by
  unfold splitGeneratedContent
  by_cases hdelim : containsSubL text ("|||QUESTION_START|||").data
  · simp only [hdelim, Bool.not_true, Bool.false_eq_true, if_false]
    have := foldl_invariant
      (fun acc : List (String × List Char) × Nat => (alKeys acc.1).Nodup)
      (fun acc part =>
        let content := pyStripL part
        if content.isEmpty then acc
        else
          (alSet acc.1 ("question" ++ String.mk (natDec acc.2)) content,
            acc.2 + 1))
      ((splitOnL text ("|||QUESTION_START|||").data).drop
        (if startsWithL (pyStripL text) ("|||QUESTION_START|||").data then 1
          else if (splitOnL text ("|||QUESTION_START|||").data).length > 1 then 1
          else 0))
      ([], 1) List.nodup_nil ?_
    · exact this
    · intro a b ha
      by_cases hc : (pyStripL b).isEmpty
      · simpa [hc] using ha
      · simpa [hc] using alKeys_nodup_alSet a.1 _ _ ha
  · simp only [hdelim, Bool.not_false, if_true]
    by_cases hp : (headingParts (text.length + 1) true text).2.isEmpty
    · simp [hp, alKeys]
    · simp only [hp, Bool.not_false, if_true]
      refine foldl_invariant (fun m => (alKeys m).Nodup) _ _ _ List.nodup_nil ?_
      intro a b ha
      exact alKeys_nodup_alSet a _ _ ha

theorem natDecF_shape : ∀ fuel n, n < fuel →
    natDecF fuel n ≠ [] ∧ (natDecF fuel n).all isDigitC = true := by
  intro fuel
  induction fuel with
  | zero => intro n h; omega
  | succ f ih =>
    intro n h
    by_cases h10 : n < 10
    · refine ⟨by simp [natDecF, h10], ?_⟩
      simp only [natDecF, if_pos h10, List.all_cons, List.all_nil,
        Bool.and_true]
      interval_cases n <;> decide
    · have hrec := ih (n / 10) (by omega)
      have hmod : isDigitC (Char.ofNat (48 + n % 10)) = true := by
        have : n % 10 < 10 := Nat.mod_lt _ (by omega)
        set m := n % 10 with hm
        interval_cases m <;> decide
      refine ⟨by simp [natDecF, h10], ?_⟩
      simp only [natDecF, if_neg h10, List.all_append, List.all_cons,
        List.all_nil, Bool.and_true, hmod, Bool.and_true]
      exact hrec.2

theorem natDec_shape (n : Nat) :
    natDec n ≠ [] ∧ (natDec n).all isDigitC = true :=
  natDecF_shape (n + 1) n (by omega)

theorem matchHeading_digits (atStart : Bool) (cs : List Char)
    (d r : List Char) (h : matchHeading atStart cs = some (d, r)) :
    d ≠ [] ∧ d.all isDigitC = true := by
  unfold matchHeading at h
  cases hp : matchHeadingPrefix atStart cs with
  | none => rw [hp] at h; exact absurd h (by simp)
  | some r7 =>
    rw [hp] at h
    simp only at h
    by_cases hd : (r7.takeWhile isDigitC).isEmpty
    · rw [if_pos hd] at h
      exact absurd h (by simp)
    · rw [if_neg hd] at h
      simp only [Option.some.injEq, Prod.mk.injEq] at h
      obtain ⟨hdd, _⟩ := h
      subst hdd
      refine ⟨by simpa using hd, ?_⟩
      exact List.all_eq_true.mpr (fun x hx => List.mem_takeWhile_imp hx)

theorem findHeading_digits (cs : List Char) :
    ∀ (atStart : Bool) (i : Nat) (d r : List Char),
      findHeading atStart cs = some (i, d, r) →
      d ≠ [] ∧ d.all isDigitC = true := by
  induction cs with
  | nil =>
    intro atStart i d r h
    unfold findHeading at h
    cases hm : matchHeading atStart [] with
    | none => rw [hm] at h; exact absurd h (by simp)
    | some p =>
      rw [hm] at h
      simp only [Option.map_some', Option.some.injEq] at h
      obtain ⟨p1, p2⟩ := p
      cases h
      exact matchHeading_digits atStart [] p1 p2 hm
  | cons c t ih =>
    intro atStart i d r h
    unfold findHeading at h
    cases hm : matchHeading atStart (c :: t) with
    | some p =>
      rw [hm] at h
      simp only [Option.some.injEq] at h
      obtain ⟨p1, p2⟩ := p
      cases h
      exact matchHeading_digits atStart (c :: t) p1 p2 hm
    | none =>
      rw [hm] at h
      simp only [Option.map_eq_some'] at h
      obtain ⟨⟨j, dd, rr⟩, hfind, heq⟩ := h
      simp only [Prod.mk.injEq] at heq
      obtain ⟨_, hd, hr⟩ := heq
      subst hd
      exact ih false j _ rr hfind

theorem headingParts_digits (fuel : Nat) :
    ∀ (atStart : Bool) (cs : List Char) (e : List Char × List Char),
      e ∈ (headingParts fuel atStart cs).2 →
      e.1 ≠ [] ∧ e.1.all isDigitC = true := by
  induction fuel with
  | zero => intro _ _ e he; simp [headingParts] at he
  | succ f ih =>
    intro atStart cs e he
    unfold headingParts at he
    cases hf : findHeading atStart cs with
    | none => rw [hf] at he; simp at he
    | some p =>
      rw [hf] at he
      obtain ⟨i, d, rest⟩ := p
      simp only [List.mem_cons] at he
      rcases he with he | he
      · have := findHeading_digits cs atStart i d rest hf
        rw [he]
        exact this
      · exact ih false rest e he

theorem foldl_invariant_mem {α β : Type} (P : α → Prop) (f : α → β → α)
    (l : List β) (init : α) (h0 : P init)
    (hstep : ∀ a b, b ∈ l → P a → P (f a b)) : P (l.foldl f init) := by
  induction l generalizing init with
  | nil => exact h0
  | cons x t ih =>
    exact ih (f init x) (hstep init x (by simp) h0)
      (fun a b hb => hstep a b (List.mem_cons_of_mem _ hb))

/-- A key of the canonical `questionN` shape: the literal `question` followed
by a non-empty digit run. -/
def questionShaped (k : String) : Prop :=
  ∃ d, d ≠ [] ∧ d.all isDigitC = true ∧ k.data = ("question").data ++ d

theorem questionShaped_of_digits (d : List Char) (h1 : d ≠ [])
    (h2 : d.all isDigitC = true) :
    questionShaped ("question" ++ String.mk d) :=
  ⟨d, h1, h2, rfl⟩

/-- Every key the Split step emits is `questionN`-shaped, on all three code
paths (delimiter split, heading-regex fallback, whole-text fallback). -/
theorem split_keys_shape (text : List Char) :
    ∀ k ∈ alKeys (splitGeneratedContent text), questionShaped k := by
  unfold splitGeneratedContent
  by_cases hdelim : containsSubL text ("|||QUESTION_START|||").data
  · simp only [hdelim, Bool.not_true, Bool.false_eq_true, if_false]
    have inv := foldl_invariant
      (fun acc : List (String × List Char) × Nat =>
        ∀ k ∈ alKeys acc.1, questionShaped k)
      (fun acc part =>
        let content := pyStripL part
        if content.isEmpty then acc
        else
          (alSet acc.1 ("question" ++ String.mk (natDec acc.2)) content,
            acc.2 + 1))
      ((splitOnL text ("|||QUESTION_START|||").data).drop
        (if startsWithL (pyStripL text) ("|||QUESTION_START|||").data then 1
          else if (splitOnL text ("|||QUESTION_START|||").data).length > 1 then 1
          else 0))
      ([], 1) (by simp [alKeys]) ?_
    · exact inv
    · intro a b ha
      by_cases hc : (pyStripL b).isEmpty
      · simpa [hc] using ha
      · simp only [hc, Bool.false_eq_true, if_false]
        intro k hk
        rcases alKeys_alSet_subset a.1 _ _ k hk with h | h
        · rw [h]
          exact questionShaped_of_digits _ (natDec_shape a.2).1
            (natDec_shape a.2).2
        · exact ha k h
  · simp only [hdelim, Bool.not_false, if_true]
    by_cases hp : (headingParts (text.length + 1) true text).2.isEmpty
    · simp only [hp, Bool.not_true, Bool.false_eq_true, if_false]
      intro k hk
      simp only [alKeys, List.map_cons, List.map_nil, List.mem_singleton] at hk
      exact hk ▸ ⟨['1'], by decide, by decide, rfl⟩
    · simp only [hp, Bool.not_false, if_true]
      have hparts := headingParts_digits (text.length + 1) true text
      refine foldl_invariant_mem
        (fun m : List (String × List Char) =>
          ∀ k ∈ alKeys m, questionShaped k) _ _ _ (by simp [alKeys]) ?_
      intro a e he ha
      intro k hk
      rcases alKeys_alSet_subset a _ _ k hk with h | h
      · rw [h]
        exact questionShaped_of_digits _ (hparts e he).1 (hparts e he).2
      · exact ha k h

theorem string_data_injective : ∀ a b : String, a.data = b.data → a = b := by
  intro a b h
  cases a
  cases b
  exact congrArg String.mk h

/-- Folding `alSet` over distinct keys produces exactly the graph list. -/
theorem foldl_alSet_graph {β : Type} (l : List β) (key : β → List Char)
    (val : β → JsonVal) (hnd : (l.map key).Nodup) :
    l.foldl (fun m e => alSet m (key e) (val e)) [] =
      l.map (fun e => (key e, val e)) := by
  have hnd' : (alKeys (l.map (fun e => (key e, val e)))).Nodup := by
    have : alKeys (l.map (fun e => (key e, val e))) = l.map key := by
      simp [alKeys, List.map_map, Function.comp]
    rw [this]
    exact hnd
  have h1 := foldl_alSet_fresh (l.map (fun e => (key e, val e))) [] hnd'
    (by simp [alKeys, alGet])
  rw [List.foldl_map] at h1
  exact h1

/-- What the Batch Flow Runner's aggregation produces when generation
succeeded: one entry per Split chunk, in order, whose value is the
aggregation of that chunk's validation response. -/
theorem flow_aggregated_eq (batchKey : String) (questions : List Request)
    (coreSkillEnabled : Bool) (template : List Char) (gen : ModelResult)
    (valClient : String → List Char → ModelResult) (h : gen.error = none) :
    (processSingleBatchFlow batchKey questions coreSkillEnabled template gen
      valClient).aggregated =
      (splitGeneratedContent gen.text).map (fun e =>
        (e.1.data, aggregateItem (valClient (batchKey ++ "_" ++ e.1)
          (buildValPrompt template questions e.1.data e.2)).text)) := by
  have herr : gen.error.isSome = false := by simp [h]
  simp only [processSingleBatchFlow, herr, Bool.false_eq_true, if_false]
  refine foldl_alSet_graph (splitGeneratedContent gen.text)
    (fun e => e.1.data) _ ?_
  have hnd := split_keys_nodup gen.text
  have : (splitGeneratedContent gen.text).map (fun e => e.1.data) =
      (alKeys (splitGeneratedContent gen.text)).map String.data := by
    simp [alKeys, List.map_map, Function.comp]
  rw [this]
  exact hnd.map (fun a b hab => string_data_injective a b hab)

/-- C3 (amended): for every batch whose generation succeeded, the final
aggregated mapping has exactly one entry per question key the Split step
produced (same keys, same count), each holding the aggregation of that key's
validation response; and whenever no JSON object can be extracted from a
validation response (cleaned or raw), the substituted value is that
response's raw text — the validator's output or error message, not the Split
chunk. -/
theorem claim_C3_missing_keys_get_validation_raw_text (batchKey : String)
    (questions : List Request) (coreSkillEnabled : Bool) (template : List Char)
    (gen : ModelResult) (valClient : String → List Char → ModelResult)
    (h : gen.error = none) :
    (alKeys (processSingleBatchFlow batchKey questions coreSkillEnabled
        template gen valClient).aggregated =
      (alKeys (splitGeneratedContent gen.text)).map String.data) ∧
    (∀ e ∈ splitGeneratedContent gen.text,
      alGet (processSingleBatchFlow batchKey questions coreSkillEnabled
          template gen valClient).aggregated e.1.data =
        some (aggregateItem (valClient (batchKey ++ "_" ++ e.1)
          (buildValPrompt template questions e.1.data e.2)).text)) ∧
    (∀ r : List Char,
      (extractFirstJsonMatch (aggCleanerText r) = none ∨
        extractFirstJsonMatch (aggCleanerText r) = some []) →
      (extractFirstJsonMatch r = none ∨ extractFirstJsonMatch r = some []) →
      aggregateItem r = JsonVal.str r) := by
  refine ⟨?_, ?_, ?_⟩
  · rw [flow_aggregated_eq batchKey questions coreSkillEnabled template gen
      valClient h]
    simp [alKeys, List.map_map, Function.comp]
  · intro e he
    rw [flow_aggregated_eq batchKey questions coreSkillEnabled template gen
      valClient h]
    refine alGet_of_mem_nodup _ _ _ (List.mem_map_of_mem _ he) ?_
    have : alKeys ((splitGeneratedContent gen.text).map (fun e =>
        (e.1.data, aggregateItem (valClient (batchKey ++ "_" ++ e.1)
          (buildValPrompt template questions e.1.data e.2)).text))) =
        (alKeys (splitGeneratedContent gen.text)).map String.data := by
      simp [alKeys, List.map_map, Function.comp]
    rw [this]
    exact (split_keys_nodup gen.text).map
      (fun a b hab => string_data_injective a b hab)
  · intro r h1 h2
    rcases h1 with h1 | h1 <;> rcases h2 with h2 | h2 <;>
      simp [aggregateItem, h1, h2]

/-- A one-chunk generation outcome for the C3 counterexample. -/
def genC3 : ModelResult :=
  { text := ("|||QUESTION_START|||AAA").data, error := none, elapsed := 0 }

/-- A validation client that fails, returning the error-message text the
source's `validate_batch` produces. -/
def valClientErr : String → List Char → ModelResult :=
  fun _ _ =>
    { text := ("Error validating MCQ - Batch 1 questions: boom").data
      error := some ("boom")
      elapsed := 0 }

/-- C3 counterexample: the chunk for `question1` is `"AAA"`, its validation
call fails, and the final mapping stores the validation error text — not the
raw Split chunk `"AAA"` the claim promises. -/
theorem claim_C3_counterexample :
    splitGeneratedContent genC3.text = [(("question1"), ("AAA").data)] ∧
    (processSingleBatchFlow ("MCQ - Batch 1") [] false [] genC3
        valClientErr).validatedText =
      ("\x7b\"question1\": \"Error validating MCQ - Batch 1 questions: boom\"\x7d").data ∧
    ("AAA") ≠ ("Error validating MCQ - Batch 1 questions: boom") := by
  refine ⟨by decide, by decide, by decide⟩

/-- C3 witness: the amended law evaluated on the failing one-chunk batch —
`question1` is present and holds the validation call's raw text. -/
theorem claim_C3_witness :
    alGet (processSingleBatchFlow ("MCQ - Batch 1") [] false [] genC3
        valClientErr).aggregated (("question1").data) =
      some (JsonVal.str
        (("Error validating MCQ - Batch 1 questions: boom").data)) := by
  have h := claim_C3_missing_keys_get_validation_raw_text ("MCQ - Batch 1") []
    false [] genC3 valClientErr rfl
  have hm := h.2.1 ((("question1"), ("AAA").data)) (by decide)
  have hr := h.2.2 (("Error validating MCQ - Batch 1 questions: boom").data)
    (Or.inl (by rfl)) (Or.inl (by rfl))
  rw [hm]
  show some (aggregateItem
    (("Error validating MCQ - Batch 1 questions: boom").data)) = _
  rw [hr]

theorem firstDigitRun_digits (l : List Char) :
    (firstDigitRun l).all isDigitC = true := by
  induction l with
  | nil => rfl
  | cons c t ih =>
    by_cases h : isDigitC c = true
    · simp only [firstDigitRun, h, if_true, List.all_eq_true]
      intro x hx
      rcases List.mem_cons.mp hx with hx | hx
      · rwa [hx]
      · exact List.mem_takeWhile_imp hx
    · simpa only [firstDigitRun, h, Bool.false_eq_true, if_false] using ih

/-- Every branch of the string-valued normalization assigns exactly the
normalized key. -/
theorem applyStrValue_eq_alSet (qs : List (String × String)) (nk : String)
    (v : List Char) : ∃ w, applyStrValue qs nk v = alSet qs nk w := by
  unfold applyStrValue
  dsimp only
  repeat' split
  all_goals exact ⟨_, rfl⟩

/-- Every branch of the dict-valued normalization assigns exactly the
normalized key. -/
theorem applyDictValue_eq_alSet (bound : Nat) (qs : List (String × String))
    (nk : String) (o : List (List Char × JsonVal)) :
    ∃ w, applyDictValue bound qs nk o = alSet qs nk w := by
  unfold applyDictValue
  dsimp only
  repeat' split
  all_goals exact ⟨_, rfl⟩

/-- The extraction loop only ever assigns `question<digits>`-shaped keys. -/
theorem processTarget_keys (bound : Nat) (qs : List (String × String))
    (target : List (List Char × JsonVal))
    (h : ∀ k ∈ alKeys qs, questionShaped k) :
    ∀ k ∈ alKeys (processTarget bound qs target), questionShaped k := by
  unfold processTarget
  refine foldl_invariant
    (fun m : List (String × String) => ∀ k ∈ alKeys m, questionShaped k)
    _ target qs h ?_
  intro a e ha
  obtain ⟨ek, ev⟩ := e
  dsimp only
  by_cases hp : isQuestionKeyPattern ek = true
  · simp only [hp, Bool.not_true, Bool.false_eq_true, if_false]
    by_cases hnum : (firstDigitRun ek).isEmpty = true
    · simpa only [hnum, if_true] using ha
    · simp only [hnum, Bool.false_eq_true, if_false]
      have hshape :
          questionShaped ("question" ++ String.mk (firstDigitRun ek)) :=
        questionShaped_of_digits _ (by simpa using hnum)
          (firstDigitRun_digits ek)
      have hset : ∀ w, ∀ k ∈ alKeys
          (alSet a ("question" ++ String.mk (firstDigitRun ek)) w),
          questionShaped k := by
        intro w k hk
        rcases alKeys_alSet_subset a _ w k hk with hk | hk
        · rw [hk]
          exact hshape
        · exact ha k hk
      cases ev with
      | str v =>
        obtain ⟨w, hw⟩ := applyStrValue_eq_alSet a
          ("question" ++ String.mk (firstDigitRun ek)) v
        show ∀ k ∈ alKeys (applyStrValue a
          ("question" ++ String.mk (firstDigitRun ek)) v), questionShaped k
        rw [hw]
        exact hset w
      | obj o =>
        obtain ⟨w, hw⟩ := applyDictValue_eq_alSet bound a
          ("question" ++ String.mk (firstDigitRun ek)) o
        show ∀ k ∈ alKeys (applyDictValue bound a
          ("question" ++ String.mk (firstDigitRun ek)) o), questionShaped k
        rw [hw]
        exact hset w
      | null =>
        dsimp only
        split
        · exact hset _
        · exact ha
      | bool b =>
        dsimp only
        split
        · exact hset _
        · exact ha
      | num lex =>
        dsimp only
        split
        · exact hset _
        · exact ha
      | arr l =>
        dsimp only
        split
        · exact hset _
        · exact ha
  · simpa only [hp, Bool.not_false, if_true] using ha

theorem alKeys_garbled_map (m : List (String × String)) :
    alKeys (m.map (fun e =>
      (e.1, String.mk (replaceL e.2.data garbledOptions ("OPTIONS").data)))) =
      alKeys m := by
  simp [alKeys, List.map_map, Function.comp]

/-- Every key the Output Normalizer emits, for every input string, is
`question<digits>`-shaped: the extraction loop filters keys through the
`(question|q)<digits>` pattern and renames them to `question<digits>`, and
the fallback branches use literal `questionN` keys. -/
theorem normalize_keys_shape (s : List Char) :
    ∀ k ∈ alKeys (normalizeLlmOutputToQuestions s), questionShaped k := by
  unfold normalizeLlmOutputToQuestions
  dsimp only
  by_cases he : (extractJsonObjects (cleanupNormalizeInput s)).isEmpty = true
  · simp only [he, if_true]
    by_cases ht : (pyStripL (cleanupNormalizeInput s)).isEmpty = true
    · simp [ht, alKeys]
    · simp only [ht, Bool.not_false, if_true]
      cases hsr : searchLastResort (cleanupNormalizeInput s) with
      | none =>
        intro k hk
        simp only [alKeys, List.map_cons, List.map_nil,
          List.mem_singleton] at hk
        exact hk ▸ ⟨['1'], by decide, by decide, rfl⟩
      | some kv =>
        obtain ⟨k0, v0⟩ := kv
        dsimp only
        by_cases hnum : (firstDigitRun k0).isEmpty = true
        · simp [hnum, alKeys]
        · simp only [hnum, Bool.false_eq_true, if_false]
          intro k hk
          simp only [alKeys, List.map_cons, List.map_nil,
            List.mem_singleton] at hk
          exact hk ▸ questionShaped_of_digits _ (by simpa using hnum)
            (firstDigitRun_digits k0)
  · simp only [he, Bool.false_eq_true, if_false]
    rw [alKeys_garbled_map]
    refine foldl_invariant
      (fun m : List (String × String) => ∀ k ∈ alKeys m, questionShaped k)
      _ _ _ (by simp [alKeys]) ?_
    intro a o ha
    exact foldl_invariant
      (fun m : List (String × String) => ∀ k ∈ alKeys m, questionShaped k)
      _ _ _ ha (fun a t hat => processTarget_keys s.length a t hat)

/-- C6 (amended): for every batch whose generation succeeded, the internal
aggregated mapping has exactly the Split step's keys, and every key of the
normalized mapping the Output Normalizer parses from `validated.text` is
`question<digits>`-shaped — but that key set is bounded neither above by
`question1..questionN` (the digit runs are whatever the model output
induced, see the three-chunk/two-request counterexample) nor below by the
Split keys (falsy validated values are dropped by the normalizer, see the
null-value counterexample). -/
theorem claim_C6_validated_keys_question_shaped (batchKey : String)
    (questions : List Request) (coreSkillEnabled : Bool) (template : List Char)
    (gen : ModelResult) (valClient : String → List Char → ModelResult)
    (h : gen.error = none) :
    (alKeys (processSingleBatchFlow batchKey questions coreSkillEnabled
        template gen valClient).aggregated =
      (alKeys (splitGeneratedContent gen.text)).map String.data) ∧
    (∀ k ∈ alKeys (normalizeLlmOutputToQuestions
        (processSingleBatchFlow batchKey questions coreSkillEnabled template
          gen valClient).validatedText), questionShaped k) := by
  refine ⟨?_, normalize_keys_shape _⟩
  rw [flow_aggregated_eq batchKey questions coreSkillEnabled template gen
    valClient h]
  simp [alKeys, List.map_map, Function.comp]

/-- A two-request batch whose generation text splits into three chunks. -/
def questionsC6 : List Request := [{ payload := 0 }, { payload := 1 }]

/-- The three-chunk generation outcome for the C6 counterexample. -/
def genC6 : ModelResult :=
  { text :=
      ("|||QUESTION_START|||A|||QUESTION_START|||B|||QUESTION_START|||C").data
    error := none
    elapsed := 0 }

/-- A one-chunk generation outcome for the null-value half of the C6
counterexample. -/
def genC6null : ModelResult :=
  { text := ("|||QUESTION_START|||AAA").data, error := none, elapsed := 0 }

/-- A validation client whose response is a JSON object holding a `null`
value: the aggregation loop stores `null` under the chunk's key, and the
normalizer's truthiness filter then drops that key. -/
def valClientNull : String → List Char → ModelResult :=
  fun _ _ =>
    { text := ("\x7b\"a\": null\x7d").data, error := none, elapsed := 0 }

/-- C6 counterexample, both directions.  Upper bound fails: a two-request
batch (`N = 2`) whose model output yields three chunks produces a normalized
mapping with key `question3`, outside `question1..question2`.  Lower bound
fails: a one-chunk batch whose validation response carries a `null` value
yields an empty normalized mapping although the Split key set is
`question1`. -/
theorem claim_C6_counterexample :
    (questionsC6.length = 2 ∧
      alKeys (normalizeLlmOutputToQuestions
        (processSingleBatchFlow ("MCQ - Batch 1") questionsC6 false [] genC6
          valClientTriv).validatedText) =
        [("question1"), ("question2"), ("question3")] ∧
      ("question3") ∉ [("question1"), ("question2")]) ∧
    (alKeys (splitGeneratedContent genC6null.text) = [("question1")] ∧
      alKeys (normalizeLlmOutputToQuestions
        (processSingleBatchFlow ("MCQ - Batch 1") questionsC6 false []
          genC6null valClientNull).validatedText) = []) := by
  exact ⟨⟨by decide, by decide, by decide⟩, by decide, by decide⟩

/-- C6 witness: the amended law evaluated on the three-chunk batch — the
aggregated keys equal the Split keys, and `question3`, a member of the
normalized mapping parsed from `validated.text`, is question-shaped. -/
theorem claim_C6_witness :
    (alKeys (processSingleBatchFlow ("MCQ - Batch 1") questionsC6 false []
        genC6 valClientTriv).aggregated =
      (alKeys (splitGeneratedContent genC6.text)).map String.data) ∧
    questionShaped ("question3") := by
  have h := claim_C6_validated_keys_question_shaped ("MCQ - Batch 1")
    questionsC6 false [] genC6 valClientTriv rfl
  exact ⟨h.1, h.2 ("question3") (by decide)⟩

/-- C9 (amended): the Output Normalizer is total by construction (every parse
failure lands in an explicit fallback branch — nothing is raised), and on
total failure — no JSON object extracted and no last-resort `questionN` pair
found — it returns `{question1: cleanedText}` when the CLEANED text
(stripped, quote-unwrapped, fence-stripped) is non-empty, and `{}` when the
cleaned text is empty.  The test and the stored value use the cleaned text,
not the raw input (see the counterexample: whitespace-only raw input is
non-empty yet yields `{}`). -/
theorem claim_C9_total_failure_fallback (s : List Char)
    (h1 : extractJsonObjects (cleanupNormalizeInput s) = [])
    (h2 : searchLastResort (cleanupNormalizeInput s) = none) :
    normalizeLlmOutputToQuestions s =
      if (pyStripL (cleanupNormalizeInput s)).isEmpty then []
      else [(("question1"), String.mk (cleanupNormalizeInput s))] := by
  unfold normalizeLlmOutputToQuestions
  simp only [h1, h2, List.isEmpty_nil, if_true]
  by_cases hb : (pyStripL (cleanupNormalizeInput s)).isEmpty
  · simp [hb]
  · simp [hb]

/-- C9 counterexample: whitespace-only input is non-empty raw text, yet the
normalizer returns the empty mapping (its emptiness test runs on the
stripped/cleaned text), refuting the `{question1: rawText}` fallback as
stated. -/
theorem claim_C9_counterexample :
    normalizeS ("   ") = [] ∧ ("   ") ≠ ("") ∧
    normalizeS ("   ") ≠ [(("question1"), ("   "))] := by
  refine ⟨by decide, by decide, by decide⟩

/-- C9 witness: plain text with no JSON and no recoverable pair comes back as
a synthetic `question1`. -/
theorem claim_C9_witness :
    normalizeS ("Just a question") =
      [(("question1"), ("Just a question"))] := by
  have h := claim_C9_total_failure_fallback (("Just a question").data)
    (by rfl) (by rfl)
  show normalizeLlmOutputToQuestions (("Just a question").data) = _
  rw [h]
  rfl

theorem applyRegenTags_flag (gc : RegenConfig) (k : String) (i : Int)
    (q : Request) : (applyRegenTags gc k i q).isBeingRegenerated = true := by
  unfold applyRegenTags
  cases alGet gc.existingContentMap k <;> simp only [] <;> split_ifs <;> rfl

theorem applyRegenTags_qtype (gc : RegenConfig) (k : String) (i : Int)
    (q : Request) : (applyRegenTags gc k i q).qtype = q.qtype := by
  unfold applyRegenTags
  cases alGet gc.existingContentMap k <;> simp only [] <;> split_ifs <;> rfl

/-- The remapper-fold invariant: the mutated store keeps the caller's list
length and every entry's `type`, every touched position carries the
regeneration flag, and every collected copy's `type` is one of the
regeneration map's batch-qualified keys. -/
def RegenInv (cfg : List Request) (rmap : List (String × List Int))
    (st : RegenState) : Prop :=
  st.store.length = cfg.length ∧
  (∀ p, (st.store.get? p).map Request.qtype =
    (cfg.get? p).map Request.qtype) ∧
  (∀ p ∈ st.touched, ∃ q', st.store.get? p = some q' ∧
    q'.isBeingRegenerated = true) ∧
  (∀ x ∈ st.filtered, ∃ e ∈ rmap, x.qtype = some e.1)

theorem regenStepIdx_inv (cfg : List Request)
    (rmap : List (String × List Int)) (gc : RegenConfig)
    (pbt : List (String × List Nat)) (k : String) (st : RegenState)
    (idx : Int) (hk : ∃ l, (k, l) ∈ rmap) (hinv : RegenInv cfg rmap st) :
    RegenInv cfg rmap (regenStepIdx gc pbt k st idx) := by
  obtain ⟨hlen, hty, htouch, hfilt⟩ := hinv
  unfold regenStepIdx
  cases hpos : alGet pbt (baseTypeOf k) with
  | none => exact ⟨hlen, hty, htouch, hfilt⟩
  | some positions =>
    simp only []
    by_cases hb : 0 ≤ regenTargetIdx k idx ∧
        regenTargetIdx k idx < (positions.length : Int)
    · rw [if_pos hb]
      split
      · rename_i p hget
        split
        · rename_i q hq
          have hplt : p < st.store.length := by
            by_contra hc
            rw [List.get?_eq_none.mpr (Nat.le_of_not_lt hc)] at hq
            exact absurd hq (by simp)
          refine ⟨by simpa using hlen, ?_, ?_, ?_⟩
          · intro p'
            by_cases hp' : p = p'
            · subst hp'
              rw [List.get?_set_eq_of_lt _ hplt]
              have hh := hty p
              rw [hq] at hh
              simp only [Option.map_some'] at hh ⊢
              rw [applyRegenTags_qtype, ← hh]
            · rw [List.get?_set_ne _ _ (fun hh => hp' hh)]
              exact hty p'
          · intro p' hp'
            simp only [List.mem_append, List.mem_singleton] at hp'
            rcases hp' with hp' | hp'
            · obtain ⟨q', hq', hflag⟩ := htouch p' hp'
              by_cases hpp : p = p'
              · subst hpp
                exact ⟨applyRegenTags gc k idx q,
                  List.get?_set_eq_of_lt _ hplt, applyRegenTags_flag gc k idx q⟩
              · refine ⟨q', ?_, hflag⟩
                rw [List.get?_set_ne _ _ (fun hh => hpp hh)]
                exact hq'
            · subst hp'
              exact ⟨applyRegenTags gc k idx q,
                List.get?_set_eq_of_lt _ hplt, applyRegenTags_flag gc k idx q⟩
          · intro x hx
            simp only [List.mem_append, List.mem_singleton] at hx
            rcases hx with hx | hx
            · exact hfilt x hx
            · obtain ⟨l, hl⟩ := hk
              exact ⟨(k, l), hl, by rw [hx]⟩
        · exact ⟨hlen, hty, htouch, hfilt⟩
      · exact ⟨hlen, hty, htouch, hfilt⟩
    · rw [if_neg hb]
      exact ⟨hlen, hty, htouch, hfilt⟩

theorem regenerateResolveAll_inv (cfg : List Request)
    (rmap : List (String × List Int)) (gc : RegenConfig) :
    RegenInv cfg rmap (regenerateResolveAll cfg rmap gc) := by
  unfold regenerateResolveAll
  refine foldl_invariant_mem (RegenInv cfg rmap) _ rmap
    { store := cfg, filtered := [], touched := [] }
    ⟨rfl, fun _ => rfl, by simp, by simp⟩ ?_
  intro st e he hinv
  by_cases hsome : (alGet (groupPositionsByType cfg) (baseTypeOf e.1)).isSome
  · rw [if_pos hsome]
    refine foldl_invariant (RegenInv cfg rmap)
      (regenStepIdx gc (groupPositionsByType cfg) e.1) e.2 st hinv ?_
    intro a b ha
    exact regenStepIdx_inv cfg rmap gc (groupPositionsByType cfg) e.1 a b
      ⟨e.2, by simpa using he⟩ ha
  · rw [if_neg hsome]
    exact hinv

/-- C10: the pipeline entry points mutate the caller's request dicts in
place.  (i) the Topic Packer's step-1 loop writes `original_index = i` into
every request of the caller's list, so (ii) the list is observably modified
whenever some request lacked that exact field value; (iii) the Regeneration
Remapper sets `_is_being_regenerated` (with `original_text` /
`regeneration_reason` when available) on the caller's dicts themselves,
leaving their `type` untouched, so (v) the caller's list is observably
modified, while (iv) only the appended copies carry the batch-qualified
`type`. -/
theorem claim_C10_entry_points_mutate_caller (qs cfg : List Request)
    (rmap : List (String × List Int)) (gc : RegenConfig) :
    (∀ i q, (withIndices qs).get? i = some q → q.originalIndex = some i) ∧
    ((∃ i q, qs.get? i = some q ∧ q.originalIndex ≠ some i) →
      withIndices qs ≠ qs) ∧
    (∀ p ∈ (regenerateResolveAll cfg rmap gc).touched,
      ∃ q0 q', cfg.get? p = some q0 ∧
        (regenerateResolveAll cfg rmap gc).store.get? p = some q' ∧
        q'.isBeingRegenerated = true ∧ q'.qtype = q0.qtype) ∧
    (∀ x ∈ (regenerateResolveAll cfg rmap gc).filtered,
      ∃ e ∈ rmap, x.qtype = some e.1) ∧
    (∀ p q0, p ∈ (regenerateResolveAll cfg rmap gc).touched →
      cfg.get? p = some q0 → q0.isBeingRegenerated = false →
      (regenerateResolveAll cfg rmap gc).store ≠ cfg) := by
  have hidx : ∀ i q, (withIndices qs).get? i = some q →
      q.originalIndex = some i := by
    intro i q h
    unfold withIndices at h
    rw [List.get?_map, List.enum_get?] at h
    cases hg : qs.get? i with
    | none => rw [hg] at h; exact absurd h (by simp)
    | some a =>
      rw [hg] at h
      simp only [Option.map_some', Option.some.injEq] at h
      rw [← h]
  have hinv := regenerateResolveAll_inv cfg rmap gc
  obtain ⟨hlen, hty, htouch, hfilt⟩ := hinv
  have htouch' : ∀ p ∈ (regenerateResolveAll cfg rmap gc).touched,
      ∃ q0 q', cfg.get? p = some q0 ∧
        (regenerateResolveAll cfg rmap gc).store.get? p = some q' ∧
        q'.isBeingRegenerated = true ∧ q'.qtype = q0.qtype := by
    intro p hp
    obtain ⟨q', hq', hflag⟩ := htouch p hp
    have hh := hty p
    rw [hq'] at hh
    cases hg : cfg.get? p with
    | none => rw [hg] at hh; exact absurd hh (by simp)
    | some q0 =>
      rw [hg] at hh
      simp only [Option.map_some', Option.some.injEq] at hh
      exact ⟨q0, q', rfl, hq', hflag, hh⟩
  refine ⟨hidx, ?_, htouch', hfilt, ?_⟩
  · rintro ⟨i, q, hget, hne⟩ heq
    exact hne (hidx i q (heq.symm ▸ hget))
  · intro p q0 hp hq0 hflag heq
    obtain ⟨q0', q', hq0', hq', hflag', _⟩ := htouch' p hp
    rw [heq] at hq'
    rw [hq0] at hq0'
    cases hq0'
    rw [hq0] at hq'
    cases Option.some.injEq .. ▸ hq'
    rw [hflag'] at hflag
    exact absurd hflag (by simp)

/-- C10 concrete inputs: a two-request caller list lacking `original_index`
values, and a regeneration map targeting in-batch question 2 of
`MCQ - Batch 1`, with existing content and a reason supplied. -/
def qsC10 : List Request :=
  [{ payload := 0 }, { payload := 1, originalIndex := some 5 }]

def cfgC10 : List Request :=
  [{ payload := 0, qtype := some ("MCQ") },
   { payload := 1, qtype := some ("MCQ") }]

def rmapC10 : List (String × List Int) := [(("MCQ - Batch 1"), [2])]

def gcC10 : RegenConfig :=
  { existingContentMap := [(("MCQ - Batch 1"), [(("question2"), ("old"))])],
    regenReasonsMap := [(("MCQ - Batch 1:2"), ("fix"))] }

theorem claim_C10_witness :
    withIndices qsC10 ≠ qsC10 ∧
    ((regenerateResolveAll cfgC10 rmapC10 gcC10).store.get? 1).map
      Request.isBeingRegenerated = some true ∧
    (regenerateResolveAll cfgC10 rmapC10 gcC10).store ≠ cfgC10 ∧
    (regenerateResolveAll cfgC10 rmapC10 gcC10).filtered.map Request.qtype =
      [some ("MCQ - Batch 1")] := by
  have h := claim_C10_entry_points_mutate_caller qsC10 cfgC10 rmapC10 gcC10
  refine ⟨h.2.1 ⟨1, { payload := 1, originalIndex := some 5 },
    by decide, by decide⟩, ?_, ?_, by decide⟩
  · obtain ⟨q0, q', hq0, hq', hflag, -⟩ := h.2.2.1 1 (by decide)
    rw [hq', Option.map_some', hflag]
  · exact h.2.2.2.2 1 { payload := 1, qtype := some ("MCQ") }
      (by decide) (by decide) (by decide)
